import Mathlib

/-!
Verification of `searchduplicates.py` (repository `Anaphory/searchduplicates`).

This file gives a shallow embedding of the duplicate-finder's core:

* `FStream` models an open binary file object (`io.BufferedIOBase`): its full
  byte content plus the current read position; `FStream.readChunk` models
  `file.read(length)` and `FStream.advance` the resulting position change.
* `parallelCompare` embeds `parallel_compare` (src/searchduplicates.py,
  lines 251-286).  The Python generator is fuel-indexed here: `none` models
  either fuel exhaustion or the `IndexError` raised on an empty input list
  (`file_objects[0][0]`); the theorems below show the fuel bound
  `pcFuel` always suffices.
* `groupPairs` models `typing.DefaultDict(bytes, list)` filled in iteration
  order: keys appear in first-occurrence order, each key's list in append
  order, exactly like the insertion-ordered Python dict.
* Later sections embed `files_by_size`, `make_filter`, `make_score`,
  `relpath_unless_via_root` and the `__main__` bucket loop.

Bytes are modelled as `Nat`, filenames are an opaque type parameter `α`
(the Python code never inspects the filename tuples it carries around).
-/

namespace SearchDup

open scoped List

/-- An open binary stream: immutable content plus current read position.
Models a `BufferedIOBase` object whose reads mutate only the position. -/
structure FStream where
  content : List Nat
  pos : Nat
deriving DecidableEq

/-- The bytes not yet consumed. -/
def FStream.remContent (s : FStream) : List Nat :=
  s.content.drop s.pos

/-- Number of bytes not yet consumed. -/
def FStream.remLen (s : FStream) : Nat :=
  s.content.length - s.pos

/-- `file.read length`: the next `length` bytes (fewer at end of file,
`[]` at end of file). -/
def FStream.readChunk (s : FStream) (len : Nat) : List Nat :=
  s.remContent.take len

/-- The stream after a `read length` call: position advanced by the number
of bytes actually returned. -/
def FStream.advance (s : FStream) (len : Nat) : FStream :=
  ⟨s.content, s.pos + (s.readChunk len).length⟩

/-- Append `item` to the list stored under `key`, creating the key at the
end when absent: one `DefaultDict(list)[key].append(item)` step on an
insertion-ordered dict. -/
def addToGroups {β : Type} :
    List (List Nat × List β) → List Nat → β → List (List Nat × List β)
  | [], key, item => [(key, [item])]
  | (k, l) :: rest, key, item =>
    if k = key then (k, l ++ [item]) :: rest
    else (k, l) :: addToGroups rest key item

/-- Fold a keyed list into an insertion-ordered dict of lists. -/
def groupPairsAux {β : Type} :
    List (List Nat × β) → List (List Nat × List β) → List (List Nat × List β)
  | [], acc => acc
  | (k, b) :: rest, acc => groupPairsAux rest (addToGroups acc k b)

/-- `DefaultDict(list)` built from `items` in iteration order. -/
def groupPairs {β : Type} (items : List (List Nat × β)) :
    List (List Nat × List β) :=
  groupPairsAux items []

/-- Sequence a list of optional values (`none` propagates). -/
def seqOptions {β : Type} : List (Option β) → Option (List β)
  | [] => some []
  | o :: os => o.bind (fun b => (seqOptions os).map (fun bs => b :: bs))

/-- One read round: each `(name, file)` pair is read, producing the chunk
together with the advanced pair, in the iteration order of `file_objects`. -/
def pcReads {α : Type} (len : Nat) (fos : List (α × FStream)) :
    List (List Nat × (α × FStream)) :=
  fos.map (fun p => (p.2.readChunk len, (p.1, p.2.advance len)))

/-- The round's `file_data` dict. -/
def pcGrouped {α : Type} (len : Nat) (fos : List (α × FStream)) :
    List (List Nat × List (α × FStream)) :=
  groupPairs (pcReads len fos)

/-- `file_data.pop(b"", [])`: the members that returned an empty read. -/
def pcFinished {α : Type} (len : Nat) (fos : List (α × FStream)) :
    List (α × FStream) :=
  (((pcGrouped len fos).find? (fun g => g.1.isEmpty)).map Prod.snd).getD []

/-- The remaining (non-empty-chunk) partitions of the round's dict. -/
def pcActive {α : Type} (len : Nat) (fos : List (α × FStream)) :
    List (List Nat × List (α × FStream)) :=
  (pcGrouped len fos).filter (fun g => !g.1.isEmpty)

/-- All streams advanced by one round, in the original list order: the
state of the aliased `file_objects` list after one pass of the `while`
loop. -/
def pcAdvanced {α : Type} (len : Nat) (fos : List (α × FStream)) :
    List (α × FStream) :=
  (pcReads len fos).map Prod.snd

/-- Embedding of `parallel_compare` (src/searchduplicates.py:251-286).

Yields groups of filenames; a group collects members that returned an empty
read in the same round of the same (recursive) generator.  `none` models
fuel exhaustion, or the `IndexError` from `file_objects[0][0]` on an empty
input.  Faithful points: a one-element input yields that single name; the
empty-read partition is popped and yielded first each round; with more than
one remaining partition the generator recurses into each partition in dict
order and stops; with exactly one remaining partition the `while` loop
re-reads the whole (aliased, advanced) `file_objects` list, already
finished members included. -/
def parallelCompare {α : Type} : Nat → Nat → List (α × FStream) →
    Option (List (List α))
  | 0, _, _ => none
  | _ + 1, _, [] => none
  | _ + 1, _, [f] => some [[f.1]]
  | fuel + 1, len, f₀ :: f₁ :: rest =>
    let fos := f₀ :: f₁ :: rest
    let finished := pcFinished len fos
    let active := pcActive len fos
    let yielded := if finished.isEmpty then [] else [finished.map Prod.fst]
    if active.isEmpty then some yielded
    else if 1 < active.length then
      (seqOptions (active.map (fun g => parallelCompare fuel len g.2))).map
        (fun rs => yielded ++ rs.flatten)
    else
      (parallelCompare fuel len (pcAdvanced len fos)).map
        (fun gs => yielded ++ gs)

/-! ### Stream lemmas -/

theorem FStream.length_remContent (s : FStream) :
    s.remContent.length = s.remLen := by
  simp [FStream.remContent, FStream.remLen]

theorem FStream.remContent_advance (s : FStream) (len : Nat) :
    (s.advance len).remContent = s.remContent.drop len := by
  have hlen : (s.readChunk len).length = min len s.remLen := by
    simp [FStream.readChunk, FStream.length_remContent]
  have hr : s.remLen = s.content.length - s.pos := rfl
  show s.content.drop (s.pos + (s.readChunk len).length)
      = (s.content.drop s.pos).drop len
  rw [List.drop_drop, hlen]
  rcases Nat.le_total len s.remLen with hle | hle
  · rw [Nat.min_eq_left hle, Nat.add_comm]
  · rw [Nat.min_eq_right hle,
      List.drop_eq_nil_of_le (by omega), List.drop_eq_nil_of_le (by omega)]

theorem FStream.remContent_eq_chunk_append (s : FStream) (len : Nat) :
    s.remContent = s.readChunk len ++ (s.advance len).remContent := by
  rw [FStream.remContent_advance, FStream.readChunk, List.take_append_drop]

theorem FStream.readChunk_eq_nil_iff {s : FStream} {len : Nat} (h : 1 ≤ len) :
    s.readChunk len = [] ↔ s.remLen = 0 := by
  constructor
  · intro h'
    have hlen : (s.readChunk len).length = 0 := by rw [h']; rfl
    rw [FStream.readChunk, List.length_take, FStream.length_remContent] at hlen
    omega
  · intro h'
    have hc : s.remContent = [] :=
      List.length_eq_zero.mp (by rw [FStream.length_remContent]; exact h')
    rw [FStream.readChunk, hc, List.take_nil]

theorem FStream.remLen_advance (s : FStream) (len : Nat) :
    (s.advance len).remLen = s.remLen - min len s.remLen := by
  rw [← FStream.length_remContent, FStream.remContent_advance,
    List.length_drop, FStream.length_remContent]
  omega

theorem FStream.remLen_advance_lt {s : FStream} {len : Nat}
    (hlen : 1 ≤ len) (hrem : 0 < s.remLen) :
    (s.advance len).remLen < s.remLen := by
  rw [FStream.remLen_advance]
  omega

/-! ### Grouping-dict lemmas -/

theorem addToGroups_forall {β : Type} {P : List Nat → β → Prop}
    {gs : List (List Nat × List β)} {key : List Nat} {item : β}
    (hgs : ∀ kl ∈ gs, ∀ x ∈ kl.2, P kl.1 x) (hk : P key item) :
    ∀ kl ∈ addToGroups gs key item, ∀ x ∈ kl.2, P kl.1 x := by
  induction gs with
  | nil =>
    intro kl hkl x hx
    simp only [addToGroups, List.mem_singleton] at hkl
    subst hkl
    simp only [List.mem_singleton] at hx
    subst hx
    exact hk
  | cons hd tl ih =>
    intro kl hkl x hx
    obtain ⟨k, l⟩ := hd
    simp only [addToGroups] at hkl
    by_cases hke : k = key
    · simp only [if_pos hke, List.mem_cons] at hkl
      rcases hkl with h | h
      · subst h
        simp only [List.mem_append, List.mem_singleton] at hx
        rcases hx with hx | hx
        · exact hgs (k, l) (List.mem_cons_self _ _) x hx
        · subst hx
          rw [hke]
          exact hk
      · exact hgs kl (List.mem_cons_of_mem _ h) x hx
    · simp only [if_neg hke, List.mem_cons] at hkl
      rcases hkl with h | h
      · subst h
        exact hgs (k, l) (List.mem_cons_self _ _) x hx
      · exact ih (fun kl h' => hgs kl (List.mem_cons_of_mem _ h')) kl h x hx

theorem groupPairsAux_forall {β : Type} {P : List Nat → β → Prop} :
    ∀ (items : List (List Nat × β)) (acc : List (List Nat × List β)),
    (∀ kl ∈ acc, ∀ x ∈ kl.2, P kl.1 x) → (∀ kb ∈ items, P kb.1 kb.2) →
    ∀ kl ∈ groupPairsAux items acc, ∀ x ∈ kl.2, P kl.1 x := by
  intro items
  induction items with
  | nil => intro acc hacc _; exact hacc
  | cons hd tl ih =>
    intro acc hacc hitems
    obtain ⟨k, b⟩ := hd
    simp only [groupPairsAux]
    apply ih
    · exact addToGroups_forall hacc (hitems (k, b) (List.mem_cons_self _ _))
    · intro kb h
      exact hitems kb (List.mem_cons_of_mem _ h)

theorem groupPairs_forall {β : Type} {P : List Nat → β → Prop}
    {items : List (List Nat × β)} (hitems : ∀ kb ∈ items, P kb.1 kb.2) :
    ∀ kl ∈ groupPairs items, ∀ x ∈ kl.2, P kl.1 x :=
  groupPairsAux_forall items [] (by simp) hitems

/-- Origin of every grouped element: it occurs in the keyed input list
under its group's key. -/
theorem mem_groupPairs {β : Type} {items : List (List Nat × β)}
    {kl : List Nat × List β} (h : kl ∈ groupPairs items) :
    ∀ x ∈ kl.2, (kl.1, x) ∈ items :=
  groupPairs_forall (P := fun k x => (k, x) ∈ items) (by simp) kl h

theorem addToGroups_subset {β : Type} {gs : List (List Nat × List β)}
    (key : List Nat) (item : β) {k : List Nat} {l : List β}
    (h : (k, l) ∈ gs) :
    ∃ l', (k, l') ∈ addToGroups gs key item ∧ l ⊆ l' := by
  induction gs with
  | nil => cases h
  | cons hd tl ih =>
    obtain ⟨k', l''⟩ := hd
    simp only [addToGroups]
    by_cases hke : k' = key
    · rw [if_pos hke]
      rcases List.mem_cons.mp h with h' | h'
      · rw [Prod.mk.injEq] at h'
        obtain ⟨h1, h2⟩ := h'
        subst h1
        subst h2
        exact ⟨l ++ [item], List.mem_cons_self _ _, List.subset_append_left _ _⟩
      · exact ⟨l, List.mem_cons_of_mem _ h', List.Subset.refl l⟩
    · rw [if_neg hke]
      rcases List.mem_cons.mp h with h' | h'
      · rw [Prod.mk.injEq] at h'
        obtain ⟨h1, h2⟩ := h'
        subst h1
        subst h2
        exact ⟨l, List.mem_cons_self _ _, List.Subset.refl l⟩
      · obtain ⟨l', hl', hsub⟩ := ih h'
        exact ⟨l', List.mem_cons_of_mem _ hl', hsub⟩

theorem addToGroups_self {β : Type} (gs : List (List Nat × List β))
    (key : List Nat) (item : β) :
    ∃ l, (key, l) ∈ addToGroups gs key item ∧ item ∈ l := by
  induction gs with
  | nil => exact ⟨[item], List.mem_singleton_self _, List.mem_singleton_self _⟩
  | cons hd tl ih =>
    obtain ⟨k', l''⟩ := hd
    simp only [addToGroups]
    by_cases hke : k' = key
    · rw [if_pos hke]
      subst hke
      exact ⟨l'' ++ [item], List.mem_cons_self _ _, by simp⟩
    · rw [if_neg hke]
      obtain ⟨l, hl, hmem⟩ := ih
      exact ⟨l, List.mem_cons_of_mem _ hl, hmem⟩

theorem groupPairsAux_mono {β : Type} :
    ∀ (items : List (List Nat × β)) (acc : List (List Nat × List β))
    {k : List Nat} {l : List β}, (k, l) ∈ acc →
    ∃ l', (k, l') ∈ groupPairsAux items acc ∧ l ⊆ l' := by
  intro items
  induction items with
  | nil => intro acc k l h; exact ⟨l, h, List.Subset.refl l⟩
  | cons hd tl ih =>
    intro acc k l h
    obtain ⟨k', b⟩ := hd
    simp only [groupPairsAux]
    obtain ⟨l₁, hl₁, hsub₁⟩ := addToGroups_subset k' b h
    obtain ⟨l₂, hl₂, hsub₂⟩ := ih _ hl₁
    exact ⟨l₂, hl₂, List.Subset.trans hsub₁ hsub₂⟩

/-- Every keyed input element lands in the group of its key. -/
theorem groupPairs_cover {β : Type} :
    ∀ (items : List (List Nat × β)) {k : List Nat} {b : β}, (k, b) ∈ items →
    ∃ l, (k, l) ∈ groupPairs items ∧ b ∈ l := by
  have aux : ∀ (items : List (List Nat × β)) (acc : List (List Nat × List β))
      {k : List Nat} {b : β}, (k, b) ∈ items →
      ∃ l, (k, l) ∈ groupPairsAux items acc ∧ b ∈ l := by
    intro items
    induction items with
    | nil => intro acc k b h; cases h
    | cons hd tl ih =>
      intro acc k b h
      obtain ⟨k', b'⟩ := hd
      simp only [groupPairsAux]
      rcases List.mem_cons.mp h with h' | h'
      · rw [Prod.mk.injEq] at h'
        obtain ⟨h1, h2⟩ := h'
        subst h1
        subst h2
        obtain ⟨l, hl, hmem⟩ := addToGroups_self acc k b
        obtain ⟨l', hl', hsub⟩ := groupPairsAux_mono tl _ hl
        exact ⟨l', hl', hsub hmem⟩
      · exact ih _ h'
  intro items k b h
  exact aux items [] h

theorem keys_addToGroups {β : Type} (gs : List (List Nat × List β))
    (key : List Nat) (item : β) :
    (addToGroups gs key item).map Prod.fst =
      if key ∈ gs.map Prod.fst then gs.map Prod.fst
      else gs.map Prod.fst ++ [key] := by
  induction gs with
  | nil => simp [addToGroups]
  | cons hd tl ih =>
    obtain ⟨k', l''⟩ := hd
    simp only [addToGroups]
    by_cases hke : k' = key
    · rw [if_pos hke]
      subst hke
      simp
    · rw [if_neg hke]
      simp only [List.map_cons, ih, List.mem_cons]
      have hke' : ¬ key = k' := fun h => hke h.symm
      by_cases hmem : key ∈ tl.map Prod.fst
      · rw [if_pos hmem, if_pos (Or.inr hmem)]
      · rw [if_neg hmem, if_neg (by tauto), List.cons_append]

theorem nodup_keys_addToGroups {β : Type} {gs : List (List Nat × List β)}
    (key : List Nat) (item : β) (h : (gs.map Prod.fst).Nodup) :
    ((addToGroups gs key item).map Prod.fst).Nodup := by
  rw [keys_addToGroups]
  by_cases hmem : key ∈ gs.map Prod.fst
  · rw [if_pos hmem]; exact h
  · rw [if_neg hmem]
    exact List.Nodup.append h (List.nodup_singleton key)
      (List.disjoint_singleton.mpr hmem)

theorem nodup_keys_groupPairsAux {β : Type} :
    ∀ (items : List (List Nat × β)) (acc : List (List Nat × List β)),
    (acc.map Prod.fst).Nodup → ((groupPairsAux items acc).map Prod.fst).Nodup := by
  intro items
  induction items with
  | nil => intro acc h; exact h
  | cons hd tl ih =>
    intro acc h
    exact ih _ (nodup_keys_addToGroups hd.1 hd.2 h)

theorem nodup_keys_groupPairs {β : Type} (items : List (List Nat × β)) :
    ((groupPairs items).map Prod.fst).Nodup :=
  nodup_keys_groupPairsAux items [] List.nodup_nil

/-- In a list of pairs with distinct keys, a key determines its value. -/
theorem val_eq_of_nodup_keys {κ β : Type} {gs : List (κ × β)}
    (h : (gs.map Prod.fst).Nodup) {k : κ} {l₁ l₂ : β}
    (h₁ : (k, l₁) ∈ gs) (h₂ : (k, l₂) ∈ gs) : l₁ = l₂ := by
  induction gs with
  | nil => cases h₁
  | cons hd tl ih =>
    obtain ⟨hk, hv⟩ := hd
    simp only [List.map_cons, List.nodup_cons] at h
    rcases List.mem_cons.mp h₁ with e₁ | e₁ <;>
      rcases List.mem_cons.mp h₂ with e₂ | e₂
    · have e := e₁.trans e₂.symm
      rw [Prod.mk.injEq] at e
      exact e.2
    · exfalso
      rw [Prod.mk.injEq] at e₁
      apply h.1
      rw [← e₁.1]
      exact List.mem_map_of_mem Prod.fst e₂
    · exfalso
      rw [Prod.mk.injEq] at e₂
      apply h.1
      rw [← e₂.1]
      exact List.mem_map_of_mem Prod.fst e₁
    · exact ih h.2 e₁ e₂

theorem addToGroups_val_ne_nil {β : Type} {gs : List (List Nat × List β)}
    (key : List Nat) (item : β) (h : ∀ kl ∈ gs, kl.2 ≠ []) :
    ∀ kl ∈ addToGroups gs key item, kl.2 ≠ [] := by
  induction gs with
  | nil =>
    intro kl hkl
    simp only [addToGroups, List.mem_singleton] at hkl
    subst hkl
    simp
  | cons hd tl ih =>
    intro kl hkl
    obtain ⟨k', l''⟩ := hd
    simp only [addToGroups] at hkl
    by_cases hke : k' = key
    · rw [if_pos hke] at hkl
      rcases List.mem_cons.mp hkl with h' | h'
      · subst h'; simp
      · exact h kl (List.mem_cons_of_mem _ h')
    · rw [if_neg hke] at hkl
      rcases List.mem_cons.mp hkl with h' | h'
      · subst h'
        exact h (k', l'') (List.mem_cons_self _ _)
      · exact ih (fun kl h'' => h kl (List.mem_cons_of_mem _ h'')) kl h'

theorem groupPairs_val_ne_nil {β : Type} (items : List (List Nat × β)) :
    ∀ kl ∈ groupPairs items, kl.2 ≠ [] := by
  have aux : ∀ (items : List (List Nat × β)) (acc : List (List Nat × List β)),
      (∀ kl ∈ acc, kl.2 ≠ []) → ∀ kl ∈ groupPairsAux items acc, kl.2 ≠ [] := by
    intro items
    induction items with
    | nil => intro acc h; exact h
    | cons hd tl ih =>
      intro acc h
      exact ih _ (addToGroups_val_ne_nil hd.1 hd.2 h)
  exact aux items [] (by simp)

/-- All grouped elements, in group order. -/
def flattenVals {β : Type} (gs : List (List Nat × List β)) : List β :=
  (gs.map Prod.snd).flatten

theorem flattenVals_addToGroups {β : Type} (gs : List (List Nat × List β))
    (key : List Nat) (item : β) :
    flattenVals (addToGroups gs key item) ~ flattenVals gs ++ [item] := by
  induction gs with
  | nil => simp [addToGroups, flattenVals]
  | cons hd tl ih =>
    obtain ⟨k', l''⟩ := hd
    simp only [addToGroups]
    by_cases hke : k' = key
    · rw [if_pos hke]
      simp only [flattenVals, List.map_cons, List.flatten_cons, List.append_assoc]
      exact List.Perm.append_left l'' List.perm_append_comm
    · rw [if_neg hke]
      simp only [flattenVals, List.map_cons, List.flatten_cons, List.append_assoc]
      exact List.Perm.append_left l'' ih

theorem flattenVals_groupPairsAux {β : Type} :
    ∀ (items : List (List Nat × β)) (acc : List (List Nat × List β)),
    flattenVals (groupPairsAux items acc) ~ flattenVals acc ++ items.map Prod.snd := by
  intro items
  induction items with
  | nil => intro acc; simp [groupPairsAux]
  | cons hd tl ih =>
    intro acc
    simp only [groupPairsAux, List.map_cons]
    calc flattenVals (groupPairsAux tl (addToGroups acc hd.1 hd.2))
        ~ flattenVals (addToGroups acc hd.1 hd.2) ++ tl.map Prod.snd := ih _
      _ ~ (flattenVals acc ++ [hd.2]) ++ tl.map Prod.snd :=
          (flattenVals_addToGroups acc hd.1 hd.2).append_right _
      _ = flattenVals acc ++ (hd.2 :: tl.map Prod.snd) := by simp

theorem flattenVals_groupPairs {β : Type} (items : List (List Nat × β)) :
    flattenVals (groupPairs items) ~ items.map Prod.snd := by
  have h := flattenVals_groupPairsAux items []
  simpa [flattenVals] using h

/-! ### seqOptions lemmas -/

theorem seqOptions_isSome {β : Type} :
    ∀ {l : List (Option β)}, (∀ o ∈ l, o.isSome) → (seqOptions l).isSome := by
  intro l
  induction l with
  | nil => intro _; simp [seqOptions]
  | cons o os ih =>
    intro h
    have ho : o.isSome := h o (List.mem_cons_self _ _)
    have hos : (seqOptions os).isSome := ih (fun o' h' => h o' (List.mem_cons_of_mem _ h'))
    obtain ⟨b, hb⟩ := Option.isSome_iff_exists.mp ho
    obtain ⟨bs, hbs⟩ := Option.isSome_iff_exists.mp hos
    simp [seqOptions, hb, hbs]

theorem seqOptions_cons {β : Type} {o : Option β} {os : List (Option β)}
    {rs : List β} (h : seqOptions (o :: os) = some rs) :
    ∃ b bs, o = some b ∧ seqOptions os = some bs ∧ rs = b :: bs := by
  cases o with
  | none => simp [seqOptions] at h
  | some b =>
    cases hos : seqOptions os with
    | none => simp [seqOptions, hos] at h
    | some bs =>
      have h' : some (b :: bs) = some rs := by
        rw [← h]
        show some (b :: bs) = (seqOptions os).map (fun bs => b :: bs)
        rw [hos]
        rfl
      exact ⟨b, bs, rfl, rfl, (Option.some.inj h').symm⟩

/-- Largest remaining length over a list of open files. -/
def maxRem {α : Type} (fos : List (α × FStream)) : Nat :=
  (fos.map (fun p => p.2.remLen)).foldr max 0

/-- Fuel that provably suffices for `parallelCompare` (see the
termination theorem below). -/
def pcFuel {α : Type} (fos : List (α × FStream)) : Nat :=
  maxRem fos + 1

/-! ### Lemmas about one read round -/

theorem mem_pcReads {α : Type} {len : Nat} {fos : List (α × FStream)}
    {c : List Nat} {n : α} {t : FStream} (h : (c, (n, t)) ∈ pcReads len fos) :
    ∃ s, (n, s) ∈ fos ∧ c = s.readChunk len ∧ t = s.advance len := by
  simp only [pcReads, List.mem_map] at h
  obtain ⟨p, hp, he⟩ := h
  rw [Prod.mk.injEq] at he
  obtain ⟨hc, hnt⟩ := he
  rw [Prod.mk.injEq] at hnt
  refine ⟨p.2, ?_, hc.symm, hnt.2.symm⟩
  rw [← hnt.1]
  exact hp

theorem pcReads_mem_of {α : Type} {len : Nat} {fos : List (α × FStream)}
    {n : α} {s : FStream} (h : (n, s) ∈ fos) :
    (s.readChunk len, (n, s.advance len)) ∈ pcReads len fos := by
  simp only [pcReads, List.mem_map]
  exact ⟨(n, s), h, rfl⟩

theorem mem_pcActive {α : Type} {len : Nat} {fos : List (α × FStream)}
    {kl : List Nat × List (α × FStream)} :
    kl ∈ pcActive len fos ↔ kl ∈ pcGrouped len fos ∧ kl.1 ≠ [] := by
  simp [pcActive, List.mem_filter]

/-- `find?` on a nodup-keyed dict locates the (unique) entry with empty key. -/
theorem find?_isEmpty_eq {β : Type} :
    ∀ {gs : List (List Nat × List β)}, (gs.map Prod.fst).Nodup →
    ∀ {l : List β}, ([], l) ∈ gs →
    gs.find? (fun g => g.1.isEmpty) = some ([], l) := by
  intro gs
  induction gs with
  | nil => intro _ l h; cases h
  | cons hd tl ih =>
    intro hnodup l hmem
    simp only [List.map_cons, List.nodup_cons] at hnodup
    by_cases hk : hd.1.isEmpty
    · have hk' : hd.1 = [] := by
        cases h1 : hd.1 with
        | nil => rfl
        | cons a as => rw [h1] at hk; simp [List.isEmpty] at hk
      rcases List.mem_cons.mp hmem with h | h
      · rw [List.find?_cons_of_pos _ (by simp [hk]), ← h]
      · exfalso
        apply hnodup.1
        rw [hk']
        have : ([] : List Nat) ∈ tl.map Prod.fst := List.mem_map_of_mem Prod.fst h
        exact this
    · rcases List.mem_cons.mp hmem with h | h
      · exfalso
        apply hk
        rw [← h]
        rfl
      · rw [List.find?_cons_of_neg _ (by simpa using hk)]
        exact ih hnodup.2 h

theorem mem_pcFinished {α : Type} {len : Nat} {fos : List (α × FStream)}
    {n : α} {t : FStream} (h : (n, t) ∈ pcFinished len fos) :
    ∃ s, (n, s) ∈ fos ∧ s.readChunk len = [] ∧ t = s.advance len := by
  unfold pcFinished at h
  cases hf : (pcGrouped len fos).find? (fun g => g.1.isEmpty) with
  | none => rw [hf] at h; cases h
  | some g =>
    rw [hf] at h
    simp only [Option.map_some', Option.getD_some] at h
    have hmemg := List.mem_of_find?_eq_some hf
    have hkey : g.1.isEmpty := by simpa using List.find?_some hf
    have hkey' : g.1 = [] := by
      cases h1 : g.1 with
      | nil => rfl
      | cons a as => rw [h1] at hkey; simp [List.isEmpty] at hkey
    have horigin : (g.1, (n, t)) ∈ pcReads len fos :=
      mem_groupPairs hmemg _ h
    rw [hkey'] at horigin
    obtain ⟨s, hs, hc, ht⟩ := mem_pcReads horigin
    exact ⟨s, hs, hc.symm, ht⟩

theorem pcFinished_of_read_nil {α : Type} {len : Nat} {fos : List (α × FStream)}
    {n : α} {s : FStream} (hmem : (n, s) ∈ fos) (hnil : s.readChunk len = []) :
    (n, s.advance len) ∈ pcFinished len fos := by
  have hr : ((s.readChunk len), (n, s.advance len)) ∈ pcReads len fos :=
    pcReads_mem_of hmem
  rw [hnil] at hr
  obtain ⟨l, hl, hmeml⟩ := groupPairs_cover _ hr
  unfold pcFinished pcGrouped
  rw [find?_isEmpty_eq (nodup_keys_groupPairs _) hl]
  simpa using hmeml

theorem pcActive_of_read_ne_nil {α : Type} {len : Nat} {fos : List (α × FStream)}
    {n : α} {s : FStream} (hmem : (n, s) ∈ fos) (hne : s.readChunk len ≠ []) :
    ∃ kl ∈ pcActive len fos, kl.1 = s.readChunk len ∧ (n, s.advance len) ∈ kl.2 := by
  have hr : ((s.readChunk len), (n, s.advance len)) ∈ pcReads len fos :=
    pcReads_mem_of hmem
  obtain ⟨l, hl, hmeml⟩ := groupPairs_cover _ hr
  exact ⟨(s.readChunk len, l), mem_pcActive.mpr ⟨hl, hne⟩, rfl, hmeml⟩

theorem pcActive_nodup_keys {α : Type} (len : Nat) (fos : List (α × FStream)) :
    ((pcActive len fos).map Prod.fst).Nodup :=
  List.Nodup.sublist (List.Sublist.map Prod.fst (List.filter_sublist _))
    (nodup_keys_groupPairs _)

theorem one_lt_length_of_mem_ne {γ : Type} {a b : γ} {l : List γ}
    (ha : a ∈ l) (hb : b ∈ l) (hne : a ≠ b) : 1 < l.length := by
  match l with
  | [] => cases ha
  | [x] =>
    rw [List.mem_singleton] at ha hb
    exact absurd (ha.trans hb.symm) hne
  | x :: y :: rest => simp [Nat.lt_add_of_pos_left]

/-- With at most one non-empty-chunk partition, any two members whose reads
were non-empty read the same chunk. -/
theorem chunk_eq_of_active_le_one {α : Type} {len : Nat} {fos : List (α × FStream)}
    (hone : (pcActive len fos).length ≤ 1)
    {n₁ n₂ : α} {s₁ s₂ : FStream} (h₁ : (n₁, s₁) ∈ fos) (h₂ : (n₂, s₂) ∈ fos)
    (hne₁ : s₁.readChunk len ≠ []) (hne₂ : s₂.readChunk len ≠ []) :
    s₁.readChunk len = s₂.readChunk len := by
  obtain ⟨kl₁, hkl₁, hk₁, _⟩ := pcActive_of_read_ne_nil h₁ hne₁
  obtain ⟨kl₂, hkl₂, hk₂, _⟩ := pcActive_of_read_ne_nil h₂ hne₂
  by_cases he : kl₁ = kl₂
  · rw [← hk₁, ← hk₂, he]
  · exact absurd (one_lt_length_of_mem_ne hkl₁ hkl₂ he) (by omega)

theorem FStream.remLen_pos_of_chunk_ne_nil {s : FStream} {len : Nat}
    (hlen : 1 ≤ len) (h : s.readChunk len ≠ []) : 0 < s.remLen := by
  rcases Nat.eq_zero_or_pos s.remLen with h0 | h0
  · exact absurd ((FStream.readChunk_eq_nil_iff hlen).mpr h0) h
  · exact h0

theorem FStream.remLen_advance_le (s : FStream) (len : Nat) :
    (s.advance len).remLen ≤ s.remLen := by
  rw [FStream.remLen_advance]
  omega

/-! ### maxRem lemmas -/

theorem le_maxRem {α : Type} {fos : List (α × FStream)} {p : α × FStream}
    (h : p ∈ fos) : p.2.remLen ≤ maxRem fos := by
  induction fos with
  | nil => cases h
  | cons hd tl ih =>
    rcases List.mem_cons.mp h with h' | h'
    · subst h'
      exact Nat.le_max_left _ _
    · exact Nat.le_trans (ih h') (Nat.le_max_right _ _)

theorem maxRem_lt_of_forall {α : Type} {fos : List (α × FStream)} {M : Nat}
    (hM : 0 < M) (h : ∀ p ∈ fos, p.2.remLen < M) : maxRem fos < M := by
  induction fos with
  | nil => exact hM
  | cons hd tl ih =>
    have h1 : hd.2.remLen < M := h hd (List.mem_cons_self _ _)
    have h2 : maxRem tl < M := ih (fun p hp => h p (List.mem_cons_of_mem _ hp))
    simp only [maxRem, List.map_cons, List.foldr_cons]
    exact Nat.max_lt.mpr ⟨h1, h2⟩

theorem mem_pcAdvanced {α : Type} {len : Nat} {fos : List (α × FStream)}
    {x : α × FStream} :
    x ∈ pcAdvanced len fos ↔ ∃ p ∈ fos, x = (p.1, p.2.advance len) := by
  simp only [pcAdvanced, pcReads, List.map_map, List.mem_map]
  constructor
  · rintro ⟨p, hp, he⟩
    exact ⟨p, hp, he.symm⟩
  · rintro ⟨p, hp, he⟩
    exact ⟨p, hp, he.symm⟩

/-! ### Unfolding and termination of `parallelCompare` -/

theorem parallelCompare_cons₂ {α : Type} (fuel len : Nat) (f₀ f₁ : α × FStream)
    (rest : List (α × FStream)) :
    parallelCompare (fuel + 1) len (f₀ :: f₁ :: rest) =
      (if (pcActive len (f₀ :: f₁ :: rest)).isEmpty then
        some (if (pcFinished len (f₀ :: f₁ :: rest)).isEmpty then []
          else [(pcFinished len (f₀ :: f₁ :: rest)).map Prod.fst])
      else if 1 < (pcActive len (f₀ :: f₁ :: rest)).length then
        (seqOptions ((pcActive len (f₀ :: f₁ :: rest)).map
            (fun g => parallelCompare fuel len g.2))).map
          (fun rs =>
            (if (pcFinished len (f₀ :: f₁ :: rest)).isEmpty then []
              else [(pcFinished len (f₀ :: f₁ :: rest)).map Prod.fst]) ++ rs.flatten)
      else
        (parallelCompare fuel len (pcAdvanced len (f₀ :: f₁ :: rest))).map
          (fun gs =>
            (if (pcFinished len (f₀ :: f₁ :: rest)).isEmpty then []
              else [(pcFinished len (f₀ :: f₁ :: rest)).map Prod.fst]) ++ gs)) :=
  rfl

/-- `parallelCompare` returns a result whenever the fuel exceeds the largest
remaining stream length: every active member strictly advances each round. -/
theorem pc_total {α : Type} : ∀ (fuel len : Nat) (fos : List (α × FStream)),
    1 ≤ len → fos ≠ [] → maxRem fos < fuel →
    (parallelCompare fuel len fos).isSome := by
  intro fuel
  induction fuel with
  | zero => intro len fos _ _ h; omega
  | succ fuel ih =>
    intro len fos hlen hne hfuel
    match fos with
    | [] => exact absurd rfl hne
    | [f] => simp [parallelCompare]
    | f₀ :: f₁ :: rest =>
      rw [parallelCompare_cons₂]
      by_cases hae : (pcActive len (f₀ :: f₁ :: rest)).isEmpty
      · rw [if_pos hae]
        rfl
      · rw [if_neg hae]
        have hmaxpos : 0 < maxRem (f₀ :: f₁ :: rest) := by
          have hne' : pcActive len (f₀ :: f₁ :: rest) ≠ [] := by
            intro h0
            rw [h0] at hae
            exact hae rfl
          obtain ⟨kl, hkl⟩ := List.exists_mem_of_ne_nil _ hne'
          obtain ⟨hgrp, hkne⟩ := mem_pcActive.mp hkl
          have hval := groupPairs_val_ne_nil _ _ hgrp
          obtain ⟨x, hx⟩ := List.exists_mem_of_ne_nil _ hval
          have horigin := mem_groupPairs hgrp _ hx
          obtain ⟨s, hs, hc, _⟩ := mem_pcReads (c := kl.1) (n := x.1) (t := x.2)
            (by simpa using horigin)
          have hpos : 0 < s.remLen :=
            FStream.remLen_pos_of_chunk_ne_nil hlen (by rw [← hc]; exact hkne)
          exact Nat.lt_of_lt_of_le hpos (le_maxRem hs)
        have hadv_lt : ∀ p ∈ pcAdvanced len (f₀ :: f₁ :: rest),
            p.2.remLen < maxRem (f₀ :: f₁ :: rest) := by
          intro p hp
          obtain ⟨q, hq, he⟩ := mem_pcAdvanced.mp hp
          have hgoal : (q.2.advance len).remLen < maxRem (f₀ :: f₁ :: rest) := by
            rcases Nat.eq_zero_or_pos q.2.remLen with h0 | h0
            · have hle := FStream.remLen_advance_le q.2 len
              omega
            · exact Nat.lt_of_lt_of_le (FStream.remLen_advance_lt hlen h0) (le_maxRem hq)
          rw [he]
          exact hgoal
        by_cases hl1 : 1 < (pcActive len (f₀ :: f₁ :: rest)).length
        · rw [if_pos hl1]
          rw [Option.isSome_map']
          apply seqOptions_isSome
          intro o ho
          obtain ⟨g, hg, he⟩ := List.mem_map.mp ho
          rw [← he]
          obtain ⟨hgrp, hkne⟩ := mem_pcActive.mp hg
          apply ih len g.2 hlen (groupPairs_val_ne_nil _ _ hgrp)
          apply Nat.lt_of_lt_of_le _ (Nat.lt_succ_iff.mp hfuel)
          apply maxRem_lt_of_forall hmaxpos
          intro p hp
          have horigin := mem_groupPairs hgrp _ hp
          obtain ⟨s, hs, hc, ht⟩ := mem_pcReads (c := g.1) (n := p.1) (t := p.2)
            (by simpa using horigin)
          have hpos : 0 < s.remLen :=
            FStream.remLen_pos_of_chunk_ne_nil hlen (by rw [← hc]; exact hkne)
          rw [ht]
          exact Nat.lt_of_lt_of_le (FStream.remLen_advance_lt hlen hpos) (le_maxRem hs)
        · rw [if_neg hl1]
          rw [Option.isSome_map']
          apply ih len _ hlen
          · simp [pcAdvanced, pcReads]
          · apply Nat.lt_of_lt_of_le _ (Nat.lt_succ_iff.mp hfuel)
            exact maxRem_lt_of_forall hmaxpos hadv_lt

/-! ### Invariants threaded through `parallelCompare` -/

/-- All open files have the same number of unread bytes (as is the case at
top level for a size bucket: all members have equal byte length). -/
def EqLens {α : Type} (fos : List (α × FStream)) : Prop :=
  ∀ p ∈ fos, ∀ q ∈ fos, p.2.remLen = q.2.remLen

/-- The filenames carried through the comparison are pairwise distinct. -/
def NamesNodup {α : Type} (fos : List (α × FStream)) : Prop :=
  (fos.map Prod.fst).Nodup

theorem names_pcAdvanced {α : Type} (len : Nat) (fos : List (α × FStream)) :
    (pcAdvanced len fos).map Prod.fst = fos.map Prod.fst := by
  induction fos with
  | nil => rfl
  | cons hd tl ih =>
    simp only [pcAdvanced, pcReads, List.map_cons, List.map_map] at ih ⊢
    rw [List.cons.injEq]
    exact ⟨rfl, ih⟩

theorem eqLens_pcAdvanced {α : Type} {len : Nat} {fos : List (α × FStream)}
    (h : EqLens fos) : EqLens (pcAdvanced len fos) := by
  intro p hp q hq
  obtain ⟨p', hp', hep⟩ := mem_pcAdvanced.mp hp
  obtain ⟨q', hq', heq⟩ := mem_pcAdvanced.mp hq
  rw [hep, heq]
  show (p'.2.advance len).remLen = (q'.2.advance len).remLen
  rw [FStream.remLen_advance, FStream.remLen_advance, h p' hp' q' hq']

theorem namesNodup_pcAdvanced {α : Type} {len : Nat} {fos : List (α × FStream)}
    (h : NamesNodup fos) : NamesNodup (pcAdvanced len fos) := by
  unfold NamesNodup
  rw [names_pcAdvanced]
  exact h

/-- A value list of the round's dict is a sublist of all grouped values. -/
theorem val_sublist_flattenVals {β : Type} {gs : List (List Nat × List β)}
    {kl : List Nat × List β} (h : kl ∈ gs) : kl.2.Sublist (flattenVals gs) := by
  induction gs with
  | nil => cases h
  | cons hd tl ih =>
    rcases List.mem_cons.mp h with h' | h'
    · subst h'
      simp only [flattenVals, List.map_cons, List.flatten_cons]
      exact List.sublist_append_left _ _
    · simp only [flattenVals, List.map_cons, List.flatten_cons]
      exact List.Sublist.trans (ih h') (List.sublist_append_right _ _)

theorem mem_pcActive_val_origin {α : Type} {len : Nat} {fos : List (α × FStream)}
    {kl : List Nat × List (α × FStream)} (h : kl ∈ pcActive len fos)
    {n : α} {t : FStream} (hx : (n, t) ∈ kl.2) :
    ∃ s, (n, s) ∈ fos ∧ s.readChunk len = kl.1 ∧ t = s.advance len := by
  obtain ⟨hgrp, _⟩ := mem_pcActive.mp h
  have horigin := mem_groupPairs hgrp _ hx
  obtain ⟨s, hs, hc, ht⟩ := mem_pcReads (c := kl.1) (n := n) (t := t) horigin
  exact ⟨s, hs, hc.symm, ht⟩

theorem eqLens_pcActive_val {α : Type} {len : Nat} {fos : List (α × FStream)}
    (h : EqLens fos) {kl : List Nat × List (α × FStream)}
    (hkl : kl ∈ pcActive len fos) : EqLens kl.2 := by
  intro p hp q hq
  obtain ⟨sp, hsp, _, hedp⟩ := mem_pcActive_val_origin hkl (n := p.1) (t := p.2)
    (by simpa using hp)
  obtain ⟨sq, hsq, _, hedq⟩ := mem_pcActive_val_origin hkl (n := q.1) (t := q.2)
    (by simpa using hq)
  have h2 : sp.remLen = sq.remLen := h (p.1, sp) hsp (q.1, sq) hsq
  rw [hedp, hedq, FStream.remLen_advance, FStream.remLen_advance, h2]

theorem namesNodup_pcActive_val {α : Type} {len : Nat} {fos : List (α × FStream)}
    (h : NamesNodup fos) {kl : List Nat × List (α × FStream)}
    (hkl : kl ∈ pcActive len fos) : NamesNodup kl.2 := by
  obtain ⟨hgrp, _⟩ := mem_pcActive.mp hkl
  have hsub : kl.2.Sublist (flattenVals (pcGrouped len fos)) :=
    val_sublist_flattenVals hgrp
  have hperm : flattenVals (pcGrouped len fos) ~ (pcReads len fos).map Prod.snd :=
    flattenVals_groupPairs _
  have hnames : ((pcReads len fos).map Prod.snd).map Prod.fst = fos.map Prod.fst :=
    names_pcAdvanced len fos
  have hnodup_flat : ((flattenVals (pcGrouped len fos)).map Prod.fst).Nodup := by
    refine (List.Perm.nodup_iff (hperm.map Prod.fst)).mpr ?_
    rw [hnames]
    exact h
  exact List.Nodup.sublist (hsub.map Prod.fst) hnodup_flat

/-- If no stream finished this round, then the round reads no empty chunk. -/
theorem chunk_ne_nil_of_finished_nil {α : Type} {len : Nat}
    {fos : List (α × FStream)} (hfin : pcFinished len fos = [])
    {n : α} {s : FStream} (hmem : (n, s) ∈ fos) : s.readChunk len ≠ [] := by
  intro hnil
  have := pcFinished_of_read_nil hmem hnil
  rw [hfin] at this
  cases this

/-- Under equal remaining lengths, a non-empty active set forces an empty
finished set: members either all finish together or none does. -/
theorem finished_nil_of_eqLens {α : Type} {len : Nat} {fos : List (α × FStream)}
    (hlen : 1 ≤ len) (heq : EqLens fos)
    (hact : pcActive len fos ≠ []) : pcFinished len fos = [] := by
  cases hf : pcFinished len fos with
  | nil => rfl
  | cons x xs =>
    exfalso
    have hxfin : (x.1, x.2) ∈ pcFinished len fos := by rw [hf]; simp
    obtain ⟨s, hs, hsnil, _⟩ := mem_pcFinished hxfin
    obtain ⟨kl, hkl⟩ := List.exists_mem_of_ne_nil _ hact
    obtain ⟨hgrp, hkne⟩ := mem_pcActive.mp hkl
    obtain ⟨y, hy⟩ := List.exists_mem_of_ne_nil _ (groupPairs_val_ne_nil _ _ hgrp)
    obtain ⟨s', hs', hc', _⟩ := mem_pcActive_val_origin hkl (n := y.1) (t := y.2)
      (by simpa using hy)
    have h0 : s.remLen = 0 := (FStream.readChunk_eq_nil_iff hlen).mp hsnil
    have hpos : 0 < s'.remLen :=
      FStream.remLen_pos_of_chunk_ne_nil hlen (by rw [hc']; exact hkne)
    have h2 : s.remLen = s'.remLen := heq (x.1, s) hs (y.1, s') hs'
    omega

/-- An empty active set means every member read an empty chunk. -/
theorem chunk_nil_of_active_nil {α : Type} {len : Nat} {fos : List (α × FStream)}
    (h : pcActive len fos = []) {n : α} {s : FStream} (hmem : (n, s) ∈ fos) :
    s.readChunk len = [] := by
  by_contra hne
  obtain ⟨kl, hkl, _, _⟩ := pcActive_of_read_ne_nil hmem hne
  rw [h] at hkl
  cases hkl

/-! ### Output names come from the input -/

theorem seq_map_flatten_mem {γ δ : Type} (f : γ → Option (List δ)) :
    ∀ (l : List γ) (rs : List (List δ)), seqOptions (l.map f) = some rs →
    ∀ g ∈ rs.flatten, ∃ x ∈ l, ∃ ys, f x = some ys ∧ g ∈ ys := by
  intro l
  induction l with
  | nil =>
    intro rs h g hg
    simp only [List.map_nil, seqOptions] at h
    rw [← Option.some.inj h] at hg
    cases hg
  | cons x xs ih =>
    intro rs h g hg
    rw [List.map_cons] at h
    obtain ⟨b, bs, hfb, hseq, hrs⟩ := seqOptions_cons h
    subst hrs
    rw [List.flatten_cons, List.mem_append] at hg
    rcases hg with hg | hg
    · exact ⟨x, List.mem_cons_self _ _, b, hfb, hg⟩
    · obtain ⟨x', hx', ys, hys, hgys⟩ := ih bs hseq g hg
      exact ⟨x', List.mem_cons_of_mem _ hx', ys, hys, hgys⟩

/-- Every filename yielded by `parallelCompare` names one of the input
files. -/
theorem pc_names {α : Type} : ∀ (fuel len : Nat) (fos : List (α × FStream))
    (gs : List (List α)), parallelCompare fuel len fos = some gs →
    ∀ g ∈ gs, ∀ n ∈ g, ∃ s, (n, s) ∈ fos := by
  intro fuel
  induction fuel with
  | zero => intro len fos gs h; cases h
  | succ fuel ih =>
    intro len fos gs h g hg n hn
    match fos, h with
    | [f], h =>
      simp only [parallelCompare] at h
      rw [← Option.some.inj h] at hg
      rw [List.mem_singleton] at hg
      subst hg
      rw [List.mem_singleton] at hn
      subst hn
      exact ⟨f.2, List.mem_singleton_self _⟩
    | f₀ :: f₁ :: rest, h =>
      rw [parallelCompare_cons₂] at h
      have hyield : ∀ hg' : g ∈ (if (pcFinished len (f₀ :: f₁ :: rest)).isEmpty
          then ([] : List (List α))
          else [(pcFinished len (f₀ :: f₁ :: rest)).map Prod.fst]),
          ∃ s, (n, s) ∈ f₀ :: f₁ :: rest := by
        intro hg'
        by_cases hfe : (pcFinished len (f₀ :: f₁ :: rest)).isEmpty
        · rw [if_pos hfe] at hg'
          cases hg'
        · rw [if_neg hfe, List.mem_singleton] at hg'
          subst hg'
          obtain ⟨⟨n', t⟩, hnt, he⟩ := List.mem_map.mp hn
          obtain ⟨s, hs, _, _⟩ := mem_pcFinished hnt
          rw [← he]
          exact ⟨s, hs⟩
      by_cases hae : (pcActive len (f₀ :: f₁ :: rest)).isEmpty
      · rw [if_pos hae] at h
        rw [← Option.some.inj h] at hg
        exact hyield hg
      · rw [if_neg hae] at h
        by_cases hl1 : 1 < (pcActive len (f₀ :: f₁ :: rest)).length
        · rw [if_pos hl1] at h
          obtain ⟨rs, hrs, hgs⟩ := Option.map_eq_some'.mp h
          rw [← hgs, List.mem_append] at hg
          rcases hg with hg | hg
          · exact hyield hg
          · obtain ⟨P, hP, ys, hys, hgys⟩ :=
              seq_map_flatten_mem _ _ _ hrs g hg
            obtain ⟨t, hnt⟩ := ih len P.2 ys hys g hgys n hn
            obtain ⟨s, hs, _, _⟩ := mem_pcActive_val_origin hP hnt
            exact ⟨s, hs⟩
        · rw [if_neg hl1] at h
          obtain ⟨gs', hgs', hgs⟩ := Option.map_eq_some'.mp h
          rw [← hgs, List.mem_append] at hg
          rcases hg with hg | hg
          · exact hyield hg
          · obtain ⟨t, hnt⟩ := ih len _ gs' hgs' g hg n hn
            obtain ⟨p, hp, he⟩ := mem_pcAdvanced.mp hnt
            rw [Prod.mk.injEq] at he
            refine ⟨p.2, ?_⟩
            rw [he.1]
            exact hp

/-! ### Soundness core: a yielded group only holds equal remaining contents -/

theorem pc_sound {α : Type} : ∀ (fuel len : Nat) (fos : List (α × FStream))
    (gs : List (List α)), 1 ≤ len → EqLens fos → NamesNodup fos →
    parallelCompare fuel len fos = some gs →
    ∀ g ∈ gs, ∀ n₁ ∈ g, ∀ n₂ ∈ g, ∀ s₁ s₂,
    (n₁, s₁) ∈ fos → (n₂, s₂) ∈ fos → s₁.remContent = s₂.remContent := by
  intro fuel
  induction fuel with
  | zero => intro len fos gs _ _ _ h; cases h
  | succ fuel ih =>
    intro len fos gs hlen heq hnodup h g hg n₁ hn₁ n₂ hn₂ s₁ s₂ hs₁ hs₂
    match fos, heq, hnodup, hs₁, hs₂, h with
    | [f], heq, hnodup, hs₁, hs₂, h =>
      obtain ⟨fn, fs⟩ := f
      rw [List.mem_singleton, Prod.mk.injEq] at hs₁ hs₂
      rw [hs₁.2, hs₂.2]
    | f₀ :: f₁ :: rest, heq, hnodup, hs₁, hs₂, h =>
      rw [parallelCompare_cons₂] at h
      by_cases hae : (pcActive len (f₀ :: f₁ :: rest)).isEmpty
      · have hact : pcActive len (f₀ :: f₁ :: rest) = [] := List.isEmpty_iff.mp hae
        have hc₁ : s₁.readChunk len = [] := chunk_nil_of_active_nil hact hs₁
        have hc₂ : s₂.readChunk len = [] := chunk_nil_of_active_nil hact hs₂
        have he₁ : s₁.remContent = [] := List.length_eq_zero.mp
          (by rw [FStream.length_remContent]
              exact (FStream.readChunk_eq_nil_iff hlen).mp hc₁)
        have he₂ : s₂.remContent = [] := List.length_eq_zero.mp
          (by rw [FStream.length_remContent]
              exact (FStream.readChunk_eq_nil_iff hlen).mp hc₂)
        rw [he₁, he₂]
      · rw [if_neg hae] at h
        have hane : pcActive len (f₀ :: f₁ :: rest) ≠ [] := fun h0 =>
          hae (by rw [h0]; rfl)
        have hfin : pcFinished len (f₀ :: f₁ :: rest) = [] :=
          finished_nil_of_eqLens hlen heq hane
        have hyr : (if (pcFinished len (f₀ :: f₁ :: rest)).isEmpty
            then ([] : List (List α))
            else [(pcFinished len (f₀ :: f₁ :: rest)).map Prod.fst]) = [] := by
          rw [hfin]
          rfl
        simp only [hyr, List.nil_append] at h
        by_cases hl1 : 1 < (pcActive len (f₀ :: f₁ :: rest)).length
        · rw [if_pos hl1] at h
          obtain ⟨rs, hrs, hgs⟩ := Option.map_eq_some'.mp h
          rw [← hgs] at hg
          obtain ⟨P, hP, ys, hys, hgys⟩ := seq_map_flatten_mem _ _ _ hrs g hg
          obtain ⟨t₁, ht₁⟩ := pc_names fuel len P.2 ys hys g hgys n₁ hn₁
          obtain ⟨t₂, ht₂⟩ := pc_names fuel len P.2 ys hys g hgys n₂ hn₂
          have hrec := ih len P.2 ys hlen (eqLens_pcActive_val heq hP)
            (namesNodup_pcActive_val hnodup hP) hys g hgys n₁ hn₁ n₂ hn₂ t₁ t₂
            ht₁ ht₂
          obtain ⟨u₁, hu₁, hcu₁, htu₁⟩ := mem_pcActive_val_origin hP ht₁
          obtain ⟨u₂, hu₂, hcu₂, htu₂⟩ := mem_pcActive_val_origin hP ht₂
          have he₁ : u₁ = s₁ := val_eq_of_nodup_keys hnodup hu₁ hs₁
          have he₂ : u₂ = s₂ := val_eq_of_nodup_keys hnodup hu₂ hs₂
          rw [← he₁, ← he₂, FStream.remContent_eq_chunk_append u₁ len,
            FStream.remContent_eq_chunk_append u₂ len, hcu₁, hcu₂, ← htu₁,
            ← htu₂, hrec]
        · rw [if_neg hl1] at h
          obtain ⟨gs', hgs', hgs⟩ := Option.map_eq_some'.mp h
          rw [← hgs] at hg
          have hadv₁ : (n₁, s₁.advance len) ∈ pcAdvanced len (f₀ :: f₁ :: rest) :=
            mem_pcAdvanced.mpr ⟨(n₁, s₁), hs₁, rfl⟩
          have hadv₂ : (n₂, s₂.advance len) ∈ pcAdvanced len (f₀ :: f₁ :: rest) :=
            mem_pcAdvanced.mpr ⟨(n₂, s₂), hs₂, rfl⟩
          have hrec := ih len _ gs' hlen (eqLens_pcAdvanced heq)
            (namesNodup_pcAdvanced hnodup) hgs' g hg n₁ hn₁ n₂ hn₂ _ _ hadv₁ hadv₂
          have hc₁ : s₁.readChunk len ≠ [] := chunk_ne_nil_of_finished_nil hfin hs₁
          have hc₂ : s₂.readChunk len ≠ [] := chunk_ne_nil_of_finished_nil hfin hs₂
          have hceq : s₁.readChunk len = s₂.readChunk len :=
            chunk_eq_of_active_le_one (by omega) hs₁ hs₂ hc₁ hc₂
          rw [FStream.remContent_eq_chunk_append s₁ len,
            FStream.remContent_eq_chunk_append s₂ len, hceq, hrec]

/-! ### Coverage core: no member is discarded before verification -/

theorem groupPairsAux_all_nil_key {β : Type} :
    ∀ (items : List (List Nat × β)) (l0 : List β),
    (∀ kb ∈ items, kb.1 = []) →
    groupPairsAux items [([], l0)] = [([], l0 ++ items.map Prod.snd)] := by
  intro items
  induction items with
  | nil => intro l0 _; simp [groupPairsAux]
  | cons hd tl ih =>
    intro l0 hall
    obtain ⟨k, b⟩ := hd
    have hk : k = [] := hall (k, b) (List.mem_cons_self _ _)
    subst hk
    simp only [groupPairsAux, addToGroups, if_true]
    rw [ih (l0 ++ [b]) (fun kb h => hall kb (List.mem_cons_of_mem _ h))]
    simp

theorem groupPairs_all_nil_key {β : Type} (items : List (List Nat × β))
    (hne : items ≠ []) (hall : ∀ kb ∈ items, kb.1 = []) :
    groupPairs items = [([], items.map Prod.snd)] := by
  match items with
  | [] => exact absurd rfl hne
  | (k, b) :: tl =>
    have hk : k = [] := hall (k, b) (List.mem_cons_self _ _)
    subst hk
    simp only [groupPairs, groupPairsAux, addToGroups]
    rw [groupPairsAux_all_nil_key tl [b]
      (fun kb h => hall kb (List.mem_cons_of_mem _ h))]
    simp

theorem pcActive_eq_grouped_of_finished_nil {α : Type} {len : Nat}
    {fos : List (α × FStream)} (hfin : pcFinished len fos = []) :
    pcActive len fos = pcGrouped len fos := by
  apply List.filter_eq_self.mpr
  intro kl hkl
  rcases hk : kl.1 with _ | ⟨a, as⟩
  · exfalso
    have hmem : ([], kl.2) ∈ pcGrouped len fos := by
      rw [← hk]
      exact hkl
    have hfind := find?_isEmpty_eq (nodup_keys_groupPairs _) hmem
    have hpf : pcFinished len fos = kl.2 := by
      unfold pcFinished pcGrouped
      rw [hfind]
      rfl
    exact groupPairs_val_ne_nil _ _ hkl (by rw [← hpf, hfin])
  · rfl

theorem seq_map_flatten_flatten_perm {γ δ : Type} (f : γ → Option (List (List δ)))
    (nm : γ → List δ) :
    ∀ (l : List γ) (rs : List (List (List δ))), seqOptions (l.map f) = some rs →
    (∀ x ∈ l, ∀ ys, f x = some ys → ys.flatten ~ nm x) →
    rs.flatten.flatten ~ (l.map nm).flatten := by
  intro l
  induction l with
  | nil =>
    intro rs hseq _
    simp only [List.map_nil, seqOptions] at hseq
    rw [← Option.some.inj hseq]
    rfl
  | cons x xs ih =>
    intro rs hseq hall
    rw [List.map_cons] at hseq
    obtain ⟨b, bs, hfb, hseq', hrs⟩ := seqOptions_cons hseq
    subst hrs
    simp only [List.flatten_cons, List.map_cons, List.flatten_append]
    exact List.Perm.append (hall x (List.mem_cons_self _ _) b hfb)
      (ih bs hseq' (fun x' hx' => hall x' (List.mem_cons_of_mem _ hx')))

/-- Under equal remaining lengths, the groups yielded by `parallelCompare`
cover exactly the input filenames (as a multiset): nothing is filtered away
before or during verification, singletons included. -/
theorem pc_covers {α : Type} : ∀ (fuel len : Nat) (fos : List (α × FStream))
    (gs : List (List α)), 1 ≤ len → EqLens fos →
    parallelCompare fuel len fos = some gs → gs.flatten ~ fos.map Prod.fst := by
  intro fuel
  induction fuel with
  | zero => intro len fos gs _ _ h; cases h
  | succ fuel ih =>
    intro len fos gs hlen heq h
    match fos, heq, h with
    | [f], heq, h =>
      simp only [parallelCompare] at h
      rw [← Option.some.inj h]
      simp
    | f₀ :: f₁ :: rest, heq, h =>
      rw [parallelCompare_cons₂] at h
      by_cases hae : (pcActive len (f₀ :: f₁ :: rest)).isEmpty
      · rw [if_pos hae] at h
        have hact := List.isEmpty_iff.mp hae
        have hallnil : ∀ kb ∈ pcReads len (f₀ :: f₁ :: rest), kb.1 = [] := by
          intro kb hkb
          simp only [pcReads, List.mem_map] at hkb
          obtain ⟨p, hp, he⟩ := hkb
          rw [← he]
          exact chunk_nil_of_active_nil hact (show (p.1, p.2) ∈ _ from hp)
        have hgr : pcGrouped len (f₀ :: f₁ :: rest)
            = [([], (pcReads len (f₀ :: f₁ :: rest)).map Prod.snd)] :=
          groupPairs_all_nil_key _ (by simp [pcReads]) hallnil
        have hfin : pcFinished len (f₀ :: f₁ :: rest)
            = (pcReads len (f₀ :: f₁ :: rest)).map Prod.snd := by
          unfold pcFinished
          rw [hgr, List.find?_cons_of_pos _ (by simp)]
          rfl
        rw [hfin, if_neg (by simp [pcReads])] at h
        rw [← Option.some.inj h]
        simp only [List.flatten_cons, List.flatten_nil, List.append_nil]
        rw [show (pcReads len (f₀ :: f₁ :: rest)).map Prod.snd
            = pcAdvanced len (f₀ :: f₁ :: rest) from rfl,
          names_pcAdvanced]
      · rw [if_neg hae] at h
        have hane : pcActive len (f₀ :: f₁ :: rest) ≠ [] := fun h0 =>
          hae (by rw [h0]; rfl)
        have hfin : pcFinished len (f₀ :: f₁ :: rest) = [] :=
          finished_nil_of_eqLens hlen heq hane
        have hyr : (if (pcFinished len (f₀ :: f₁ :: rest)).isEmpty
            then ([] : List (List α))
            else [(pcFinished len (f₀ :: f₁ :: rest)).map Prod.fst]) = [] := by
          rw [hfin]
          rfl
        simp only [hyr, List.nil_append] at h
        have hag : pcActive len (f₀ :: f₁ :: rest) = pcGrouped len (f₀ :: f₁ :: rest) :=
          pcActive_eq_grouped_of_finished_nil hfin
        by_cases hl1 : 1 < (pcActive len (f₀ :: f₁ :: rest)).length
        · rw [if_pos hl1] at h
          obtain ⟨rs, hrs, hgs⟩ := Option.map_eq_some'.mp h
          rw [← hgs]
          have hsp := seq_map_flatten_flatten_perm
            (fun P => parallelCompare fuel len P.2) (fun P => P.2.map Prod.fst)
            (pcActive len (f₀ :: f₁ :: rest)) rs hrs
            (fun P hP ys hys => ih len P.2 ys hlen (eqLens_pcActive_val heq hP) hys)
          refine hsp.trans ?_
          have hmf : ((pcActive len (f₀ :: f₁ :: rest)).map
              (fun P => P.2.map Prod.fst)).flatten
              = (flattenVals (pcActive len (f₀ :: f₁ :: rest))).map Prod.fst := by
            simp only [flattenVals, List.map_flatten, List.map_map]
            rfl
          rw [hmf, hag]
          have hperm := (flattenVals_groupPairs (pcReads len (f₀ :: f₁ :: rest))).map
            Prod.fst
          refine hperm.trans ?_
          rw [show (pcReads len (f₀ :: f₁ :: rest)).map Prod.snd
              = pcAdvanced len (f₀ :: f₁ :: rest) from rfl,
            names_pcAdvanced]
        · rw [if_neg hl1] at h
          obtain ⟨gs', hgs', hgs⟩ := Option.map_eq_some'.mp h
          rw [← hgs]
          have hrec := ih len _ gs' hlen (eqLens_pcAdvanced heq) hgs'
          refine hrec.trans ?_
          rw [names_pcAdvanced]

/-! ### Filesystem model and the `files_by_size` walk

Symbolic links are not modelled: the walk-level claims verified here concern
runs without symlinks, where `Path.resolve` is the identity on the already
absolute traversal paths and the `follow_links`/dangling-link branches
(src 174-176) never fire. -/

/-- A directory tree: regular files with byte contents, directories with an
ordered list of children (`path.iterdir()` order). -/
inductive FSEntry : Type where
  | file (name : String) (content : List Nat)
  | dir (name : String) (children : List FSEntry)

/-- The entry's basename. -/
def FSEntry.name : FSEntry → String
  | .file n _ => n
  | .dir n _ => n

/-- An absolute, resolved path, as its list of components. -/
abbrev Path := List String

/-- The walk's accumulator, `extend : DefaultDict[Optional[int], set[Path]]`:
`visited` is the `extend[None]` sentinel (visited directories), `buckets`
holds one `(size, path)` membership pair per file per size bucket
(`extend[size]`). -/
structure SizeIndex where
  visited : List Path
  buckets : List (Nat × Path)
deriving DecidableEq

/-- `extend[None].add(f)` — only ever called after `f in extend[None]`
was checked false, so a plain append models the set insertion. -/
def SizeIndex.addVisited (idx : SizeIndex) (p : Path) : SizeIndex :=
  { idx with visited := idx.visited ++ [p] }

/-- `extend[size].add(f)`: set insertion into the file's size bucket. -/
def SizeIndex.addBucket (idx : SizeIndex) (s : Nat) (p : Path) : SizeIndex :=
  if (s, p) ∈ idx.buckets then idx
  else { idx with buckets := idx.buckets ++ [(s, p)] }

mutual
/-- One iteration of the `files_by_size` loop body (src 172-201) for the
entry `e` living at `cur ++ [e.name]`, entered only when the `include`
filter admitted that path: skip if already visited, recurse into
directories when `recursive` (the nested call hard-codes `recursive=True`,
src 182), then size-index regular files at or above `min_size`. -/
def fbsEntry (minSize : Nat) (recursive : Bool) (includeF : Path → Bool)
    (cur : Path) (e : FSEntry) (idx : SizeIndex) : SizeIndex :=
  let f := cur ++ [e.name]
  if f ∈ idx.visited then idx
  else
    match e with
    | .dir _ ch =>
      if recursive then fbsList minSize true includeF f ch (idx.addVisited f)
      else idx
    | .file _ c =>
      if c.length < minSize then idx else idx.addBucket c.length f

/-- The `for f in filter(include, path.iterdir())` loop (src 172): entries
failing the filter are skipped entirely — directories included. -/
def fbsList (minSize : Nat) (recursive : Bool) (includeF : Path → Bool)
    (cur : Path) : List FSEntry → SizeIndex → SizeIndex
  | [], idx => idx
  | e :: es, idx =>
    fbsList minSize recursive includeF cur es
      (if includeF (cur ++ [e.name]) then
        fbsEntry minSize recursive includeF cur e idx
      else idx)
end

/-- `files_by_size(path, min_size, follow_links, recursive, extend, include)`
(src 160-202) on the directory at `rootPath` whose listing is `children`. -/
def files_by_size (minSize : Nat) (recursive : Bool) (includeF : Path → Bool)
    (rootPath : Path) (children : List FSEntry) (extend : SizeIndex) :
    SizeIndex :=
  fbsList minSize recursive includeF rootPath children extend

/-- `make_filter(include, exclude)` (src 205-211), parameterised by the
`pathlib.Path.match` primitive `matchP`: with a non-empty include list the
path must match some include pattern, and must match no exclude pattern. -/
def make_filter (matchP : Path → String → Bool)
    (includePatterns excludePatterns : List String) : Path → Bool :=
  fun p =>
    (includePatterns.isEmpty || includePatterns.any (fun i => matchP p i)) &&
    !(excludePatterns.any (fun x => matchP p x))

/-- The always-true default filter `true` (src 156-157). -/
def truePred (_ : Path) : Bool :=
  true

mutual
/-- Ground truth: every regular file in the tree, with its byte length,
paths rooted at `cur`. -/
def allFilesE : FSEntry → Path → List (Nat × Path)
  | .file n c, cur => [(c.length, cur ++ [n])]
  | .dir n ch, cur => allFilesL ch (cur ++ [n])

def allFilesL : List FSEntry → Path → List (Nat × Path)
  | [], _ => []
  | e :: es, cur => allFilesE e cur ++ allFilesL es cur
end

mutual
/-- Ground truth: every directory path in the tree, rooted at `cur`. -/
def allDirsE : FSEntry → Path → List Path
  | .file _ _, _ => []
  | .dir n ch, cur => (cur ++ [n]) :: allDirsL ch (cur ++ [n])

def allDirsL : List FSEntry → Path → List Path
  | [], _ => []
  | e :: es, cur => allDirsE e cur ++ allDirsL es cur
end

mutual
/-- Well-formed tree: sibling names are pairwise distinct (so a traversal
path denotes at most one entry, as on a real filesystem). -/
def wfE : FSEntry → Bool
  | .file _ _ => true
  | .dir _ ch => wfL ch

def wfL : List FSEntry → Bool
  | [] => true
  | e :: es => wfE e && wfL es && !(es.any (fun e' => e'.name == e.name))
end

/-! ### Walk invariants -/

theorem addBucket_visited (idx : SizeIndex) (s : Nat) (p : Path) :
    (idx.addBucket s p).visited = idx.visited := by
  unfold SizeIndex.addBucket
  by_cases h : (s, p) ∈ idx.buckets
  · rw [if_pos h]
  · rw [if_neg h]

theorem mem_addBucket {idx : SizeIndex} {s : Nat} {p : Path} {sp : Nat × Path}
    (h : sp ∈ (idx.addBucket s p).buckets) :
    sp ∈ idx.buckets ∨ sp = (s, p) := by
  unfold SizeIndex.addBucket at h
  by_cases hmem : (s, p) ∈ idx.buckets
  · rw [if_pos hmem] at h
    exact Or.inl h
  · rw [if_neg hmem] at h
    simp only [List.mem_append, List.mem_singleton] at h
    exact h

theorem addBucket_nodup {idx : SizeIndex} (s : Nat) (p : Path)
    (h : idx.buckets.Nodup) : (idx.addBucket s p).buckets.Nodup := by
  unfold SizeIndex.addBucket
  by_cases hmem : (s, p) ∈ idx.buckets
  · rw [if_pos hmem]
    exact h
  · rw [if_neg hmem]
    exact List.Nodup.append h (List.nodup_singleton _)
      (List.disjoint_singleton.mpr hmem)

/-- Equation lemma: `fbsEntry` on a regular file. -/
theorem fbsEntry_file (minSize : Nat) (recursive : Bool) (includeF : Path → Bool)
    (cur : Path) (n : String) (c : List Nat) (idx : SizeIndex) :
    fbsEntry minSize recursive includeF cur (.file n c) idx =
      if cur ++ [n] ∈ idx.visited then idx
      else if c.length < minSize then idx
      else idx.addBucket c.length (cur ++ [n]) := by
  unfold fbsEntry
  by_cases hv : cur ++ [n] ∈ idx.visited
  · rw [if_pos hv, if_pos (show cur ++ [FSEntry.name (.file n c)] ∈ idx.visited from hv)]
  · rw [if_neg hv, if_neg (show cur ++ [FSEntry.name (.file n c)] ∉ idx.visited from hv)]
    rfl

/-- Equation lemma: `fbsEntry` on a directory. -/
theorem fbsEntry_dir (minSize : Nat) (recursive : Bool) (includeF : Path → Bool)
    (cur : Path) (n : String) (ch : List FSEntry) (idx : SizeIndex) :
    fbsEntry minSize recursive includeF cur (.dir n ch) idx =
      if cur ++ [n] ∈ idx.visited then idx
      else if recursive then
        fbsList minSize true includeF (cur ++ [n]) ch
          (idx.addVisited (cur ++ [n]))
      else idx := by
  unfold fbsEntry
  by_cases hv : cur ++ [n] ∈ idx.visited
  · rw [if_pos hv, if_pos (show cur ++ [FSEntry.name (.dir n ch)] ∈ idx.visited from hv)]
  · rw [if_neg hv, if_neg (show cur ++ [FSEntry.name (.dir n ch)] ∉ idx.visited from hv)]
    rfl

theorem fbsList_cons (minSize : Nat) (recursive : Bool) (includeF : Path → Bool)
    (cur : Path) (e : FSEntry) (es : List FSEntry) (idx : SizeIndex) :
    fbsList minSize recursive includeF cur (e :: es) idx =
      fbsList minSize recursive includeF cur es
        (if includeF (cur ++ [e.name]) then
          fbsEntry minSize recursive includeF cur e idx
        else idx) :=
  rfl

mutual
theorem fbsEntry_buckets_sub : ∀ (e : FSEntry) (minSize : Nat)
    (recursive : Bool) (includeF : Path → Bool) (cur : Path) (idx : SizeIndex)
    (sp : Nat × Path),
    sp ∈ (fbsEntry minSize recursive includeF cur e idx).buckets →
    sp ∈ idx.buckets ∨ sp ∈ allFilesE e cur := by
  intro e minSize recursive includeF cur idx sp h
  match e, h with
  | .file n c, h =>
    rw [fbsEntry_file] at h
    by_cases hv : cur ++ [n] ∈ idx.visited
    · rw [if_pos hv] at h
      exact Or.inl h
    · rw [if_neg hv] at h
      by_cases hsz : c.length < minSize
      · rw [if_pos hsz] at h
        exact Or.inl h
      · rw [if_neg hsz] at h
        rcases mem_addBucket h with h' | h'
        · exact Or.inl h'
        · refine Or.inr ?_
          rw [h']
          simp [allFilesE]
  | .dir n ch, h =>
    rw [fbsEntry_dir] at h
    by_cases hv : cur ++ [n] ∈ idx.visited
    · rw [if_pos hv] at h
      exact Or.inl h
    · rw [if_neg hv] at h
      cases recursive with
      | false =>
        rw [if_neg Bool.false_ne_true] at h
        exact Or.inl h
      | true =>
        rw [if_pos rfl] at h
        rcases fbsList_buckets_sub ch minSize true includeF (cur ++ [n])
          (idx.addVisited (cur ++ [n])) sp h with h' | h'
        · exact Or.inl h'
        · refine Or.inr ?_
          simp only [allFilesE]
          exact h'

theorem fbsList_buckets_sub : ∀ (es : List FSEntry) (minSize : Nat)
    (recursive : Bool) (includeF : Path → Bool) (cur : Path) (idx : SizeIndex)
    (sp : Nat × Path),
    sp ∈ (fbsList minSize recursive includeF cur es idx).buckets →
    sp ∈ idx.buckets ∨ sp ∈ allFilesL es cur := by
  intro es minSize recursive includeF cur idx sp h
  match es, h with
  | [], h => exact Or.inl h
  | e :: es, h =>
    rw [fbsList_cons] at h
    rcases fbsList_buckets_sub es minSize recursive includeF cur _ sp h with h' | h'
    · by_cases hinc : includeF (cur ++ [e.name])
      · rw [if_pos hinc] at h'
        rcases fbsEntry_buckets_sub e minSize recursive includeF cur idx sp h' with h'' | h''
        · exact Or.inl h''
        · exact Or.inr (by simp only [allFilesL, List.mem_append]; exact Or.inl h'')
      · rw [if_neg hinc] at h'
        exact Or.inl h'
    · exact Or.inr (by simp only [allFilesL, List.mem_append]; exact Or.inr h')
end

mutual
theorem fbsEntry_visited_sub : ∀ (e : FSEntry) (minSize : Nat)
    (recursive : Bool) (includeF : Path → Bool) (cur : Path) (idx : SizeIndex)
    (p : Path),
    p ∈ (fbsEntry minSize recursive includeF cur e idx).visited →
    p ∈ idx.visited ∨ p ∈ allDirsE e cur := by
  intro e minSize recursive includeF cur idx p h
  match e, h with
  | .file n c, h =>
    rw [fbsEntry_file] at h
    by_cases hv : cur ++ [n] ∈ idx.visited
    · rw [if_pos hv] at h
      exact Or.inl h
    · rw [if_neg hv] at h
      by_cases hsz : c.length < minSize
      · rw [if_pos hsz] at h
        exact Or.inl h
      · rw [if_neg hsz] at h
        rw [addBucket_visited] at h
        exact Or.inl h
  | .dir n ch, h =>
    rw [fbsEntry_dir] at h
    by_cases hv : cur ++ [n] ∈ idx.visited
    · rw [if_pos hv] at h
      exact Or.inl h
    · rw [if_neg hv] at h
      cases recursive with
      | false =>
        rw [if_neg Bool.false_ne_true] at h
        exact Or.inl h
      | true =>
        rw [if_pos rfl] at h
        rcases fbsList_visited_sub ch minSize true includeF (cur ++ [n])
          (idx.addVisited (cur ++ [n])) p h with h' | h'
        · unfold SizeIndex.addVisited at h'
          simp only [List.mem_append, List.mem_singleton] at h'
          rcases h' with h'' | h''
          · exact Or.inl h''
          · refine Or.inr ?_
            rw [h'']
            simp [allDirsE]
        · refine Or.inr ?_
          simp only [allDirsE]
          exact List.mem_cons_of_mem _ h'

theorem fbsList_visited_sub : ∀ (es : List FSEntry) (minSize : Nat)
    (recursive : Bool) (includeF : Path → Bool) (cur : Path) (idx : SizeIndex)
    (p : Path),
    p ∈ (fbsList minSize recursive includeF cur es idx).visited →
    p ∈ idx.visited ∨ p ∈ allDirsL es cur := by
  intro es minSize recursive includeF cur idx p h
  match es, h with
  | [], h => exact Or.inl h
  | e :: es, h =>
    rw [fbsList_cons] at h
    rcases fbsList_visited_sub es minSize recursive includeF cur _ p h with h' | h'
    · by_cases hinc : includeF (cur ++ [e.name])
      · rw [if_pos hinc] at h'
        rcases fbsEntry_visited_sub e minSize recursive includeF cur idx p h' with h'' | h''
        · exact Or.inl h''
        · exact Or.inr (by simp only [allDirsL, List.mem_append]; exact Or.inl h'')
      · rw [if_neg hinc] at h'
        exact Or.inl h'
    · exact Or.inr (by simp only [allDirsL, List.mem_append]; exact Or.inr h')
end

mutual
theorem fbsEntry_buckets_nodup : ∀ (e : FSEntry) (minSize : Nat)
    (recursive : Bool) (includeF : Path → Bool) (cur : Path) (idx : SizeIndex),
    idx.buckets.Nodup →
    (fbsEntry minSize recursive includeF cur e idx).buckets.Nodup := by
  intro e minSize recursive includeF cur idx hnd
  match e with
  | .file n c =>
    rw [fbsEntry_file]
    by_cases hv : cur ++ [n] ∈ idx.visited
    · rw [if_pos hv]
      exact hnd
    · rw [if_neg hv]
      by_cases hsz : c.length < minSize
      · rw [if_pos hsz]
        exact hnd
      · rw [if_neg hsz]
        exact addBucket_nodup _ _ hnd
  | .dir n ch =>
    rw [fbsEntry_dir]
    by_cases hv : cur ++ [n] ∈ idx.visited
    · rw [if_pos hv]
      exact hnd
    · rw [if_neg hv]
      cases recursive with
      | false =>
        rw [if_neg Bool.false_ne_true]
        exact hnd
      | true =>
        rw [if_pos rfl]
        exact fbsList_buckets_nodup ch minSize true includeF _ _ hnd

theorem fbsList_buckets_nodup : ∀ (es : List FSEntry) (minSize : Nat)
    (recursive : Bool) (includeF : Path → Bool) (cur : Path) (idx : SizeIndex),
    idx.buckets.Nodup →
    (fbsList minSize recursive includeF cur es idx).buckets.Nodup := by
  intro es minSize recursive includeF cur idx hnd
  match es with
  | [] => exact hnd
  | e :: es =>
    rw [fbsList_cons]
    apply fbsList_buckets_nodup es minSize recursive includeF cur
    by_cases hinc : includeF (cur ++ [e.name])
    · rw [if_pos hinc]
      exact fbsEntry_buckets_nodup e minSize recursive includeF cur idx hnd
    · rw [if_neg hinc]
      exact hnd
end

/-! ### Tree path structure -/

/-- All paths (files and directories) contributed by one entry. -/
def entryPaths (e : FSEntry) (cur : Path) : List Path :=
  (allFilesE e cur).map Prod.snd ++ allDirsE e cur

/-- All paths contributed by a listing. -/
def listPaths (es : List FSEntry) (cur : Path) : List Path :=
  (allFilesL es cur).map Prod.snd ++ allDirsL es cur

theorem listPaths_cons (e : FSEntry) (es : List FSEntry) (cur : Path) :
    listPaths (e :: es) cur ~ entryPaths e cur ++ listPaths es cur := by
  simp only [listPaths, entryPaths, allFilesL, allDirsL, List.map_append,
    List.append_assoc]
  refine List.Perm.append_left _ ?_
  calc (allFilesL es cur).map Prod.snd ++ (allDirsE e cur ++ allDirsL es cur)
      = ((allFilesL es cur).map Prod.snd ++ allDirsE e cur) ++ allDirsL es cur := by
        rw [List.append_assoc]
    _ ~ (allDirsE e cur ++ (allFilesL es cur).map Prod.snd) ++ allDirsL es cur :=
        (List.perm_append_comm).append_right _
    _ = allDirsE e cur ++ listPaths es cur := by
        rw [List.append_assoc]
        rfl

mutual
theorem entryPaths_shape : ∀ (e : FSEntry) (cur : Path) (p : Path),
    p ∈ entryPaths e cur → ∃ q, p = cur ++ e.name :: q := by
  intro e cur p h
  match e, h with
  | .file n c, h =>
    simp only [entryPaths, allFilesE, allDirsE, List.map_cons, List.map_nil,
      List.append_nil, List.mem_singleton] at h
    exact ⟨[], by rw [h]; simp [FSEntry.name]⟩
  | .dir n ch, h =>
    simp only [entryPaths, allFilesE, allDirsE] at h
    rw [List.mem_append] at h
    rcases h with h | h
    · have hl : p ∈ listPaths ch (cur ++ [n]) := by
        unfold listPaths
        rw [List.mem_append]
        exact Or.inl h
      obtain ⟨e', _, q, hq⟩ := listPaths_shape ch (cur ++ [n]) p hl
      refine ⟨e'.name :: q, ?_⟩
      rw [hq]
      simp [FSEntry.name]
    · rcases List.mem_cons.mp h with h' | h'
      · exact ⟨[], by rw [h']; simp [FSEntry.name]⟩
      · have hl : p ∈ listPaths ch (cur ++ [n]) := by
          unfold listPaths
          rw [List.mem_append]
          exact Or.inr h'
        obtain ⟨e', _, q, hq⟩ := listPaths_shape ch (cur ++ [n]) p hl
        refine ⟨e'.name :: q, ?_⟩
        rw [hq]
        simp [FSEntry.name]

theorem listPaths_shape : ∀ (es : List FSEntry) (cur : Path) (p : Path),
    p ∈ listPaths es cur → ∃ e ∈ es, ∃ q, p = cur ++ e.name :: q := by
  intro es cur p h
  match es, h with
  | [], h =>
    simp [listPaths, allFilesL, allDirsL] at h
  | e :: es, h =>
    rw [(listPaths_cons e es cur).mem_iff, List.mem_append] at h
    rcases h with h | h
    · obtain ⟨q, hq⟩ := entryPaths_shape e cur p h
      exact ⟨e, List.mem_cons_self _ _, q, hq⟩
    · obtain ⟨e', he', q, hq⟩ := listPaths_shape es cur p h
      exact ⟨e', List.mem_cons_of_mem _ he', q, hq⟩
end

theorem path_shape_ne {cur : Path} {n₁ n₂ : String} {q₁ q₂ : List String}
    (h : n₁ ≠ n₂) : cur ++ n₁ :: q₁ ≠ cur ++ n₂ :: q₂ := by
  intro he
  have := (List.append_right_inj cur).mp he
  rw [List.cons.injEq] at this
  exact h this.1

theorem path_shape_ne_parent {cur : Path} {n : String} {q : List String} :
    cur ++ n :: q ≠ cur := by
  intro he
  have hlen := congrArg List.length he
  simp only [List.length_append, List.length_cons] at hlen
  omega

mutual
theorem entryPaths_nodup : ∀ (e : FSEntry) (cur : Path), wfE e →
    (entryPaths e cur).Nodup := by
  intro e cur hwf
  match e with
  | .file n c =>
    simp [entryPaths, allFilesE, allDirsE]
  | .dir n ch =>
    have hch : wfL ch := hwf
    have hnd : (listPaths ch (cur ++ [n])).Nodup := listPaths_nodup ch _ hch
    have hshape := listPaths_shape ch (cur ++ [n])
    have hfresh : cur ++ [n] ∉ listPaths ch (cur ++ [n]) := by
      intro hmem
      obtain ⟨e', _, q, hq⟩ := hshape _ hmem
      exact path_shape_ne_parent hq.symm
    show ((allFilesE (.dir n ch) cur).map Prod.snd ++ allDirsE (.dir n ch) cur).Nodup
    simp only [allFilesE, allDirsE]
    have hperm : (allFilesL ch (cur ++ [n])).map Prod.snd ++
        ((cur ++ [n]) :: allDirsL ch (cur ++ [n])) ~
        (cur ++ [n]) :: listPaths ch (cur ++ [n]) := by
      unfold listPaths
      exact List.perm_middle
    refine hperm.nodup_iff.mpr ?_
    rw [List.nodup_cons]
    exact ⟨hfresh, hnd⟩

theorem listPaths_nodup : ∀ (es : List FSEntry) (cur : Path), wfL es →
    (listPaths es cur).Nodup := by
  intro es cur hwf
  match es with
  | [] => simp [listPaths, allFilesL, allDirsL]
  | e :: es =>
    have hwf' : (wfE e && wfL es && !(es.any (fun e' => e'.name == e.name))) = true :=
      hwf
    rw [Bool.and_eq_true, Bool.and_eq_true] at hwf'
    obtain ⟨⟨hwfe, hwfes⟩, hname⟩ := hwf'
    have hnames : ∀ e' ∈ es, e'.name ≠ e.name := by
      intro e' he' heq
      rw [Bool.not_eq_true', List.any_eq_false] at hname
      have := hname e' he'
      rw [heq] at this
      simp at this
    refine (listPaths_cons e es cur).nodup_iff.mpr ?_
    refine List.Nodup.append (entryPaths_nodup e cur hwfe)
      (listPaths_nodup es cur hwfes) ?_
    intro p hpe hpl
    obtain ⟨q, hq⟩ := entryPaths_shape e cur p hpe
    obtain ⟨e', he', q', hq'⟩ := listPaths_shape es cur p hpl
    rw [hq] at hq'
    exact path_shape_ne (fun h => hnames e' he' h.symm) hq'
end

/-! ### Counting: bucket cardinalities sum to the number of indexed files -/

theorem sum_map_add_nat {κ : Type} (f g : κ → Nat) :
    ∀ ks : List κ, (ks.map (fun k => f k + g k)).sum = (ks.map f).sum + (ks.map g).sum := by
  intro ks
  induction ks with
  | nil => rfl
  | cons k ks ih =>
    simp only [List.map_cons, List.sum_cons, ih]
    omega

theorem sum_indicator_eq_count {κ : Type} [DecidableEq κ] (a : κ) :
    ∀ ks : List κ, (ks.map (fun k => if a = k then 1 else 0)).sum = ks.count a := by
  intro ks
  induction ks with
  | nil => rfl
  | cons k ks ih =>
    simp only [List.map_cons, List.sum_cons, ih, List.count_cons]
    by_cases h : a = k
    · rw [if_pos h, if_pos (by rw [h]; exact beq_self_eq_true k)]
      omega
    · rw [if_neg h, if_neg (by simp [beq_iff_eq]; exact fun he => h he.symm)]
      omega

theorem sum_filter_keys {κ γ : Type} [DecidableEq κ] (key : γ → κ) :
    ∀ (l : List γ) (ks : List κ), ks.Nodup → (∀ x ∈ l, key x ∈ ks) →
    (ks.map (fun k => (l.filter (fun x => key x = k)).length)).sum = l.length := by
  intro l
  induction l with
  | nil =>
    intro ks _ _
    apply List.sum_eq_zero
    intro x hx
    obtain ⟨k, _, hk⟩ := List.mem_map.mp hx
    rw [← hk]
    simp
  | cons a l ih =>
    intro ks hnd hcov
    have hcov' : ∀ x ∈ l, key x ∈ ks := fun x hx =>
      hcov x (List.mem_cons_of_mem _ hx)
    have hrec := ih ks hnd hcov'
    have hmap : ks.map (fun k => ((a :: l).filter (fun x => key x = k)).length)
        = ks.map (fun k => (l.filter (fun x => key x = k)).length
            + (if key a = k then 1 else 0)) := by
      apply List.map_congr_left
      intro k _
      rw [List.filter_cons]
      by_cases hak : key a = k
      · rw [if_pos (by simp [hak]), if_pos hak, List.length_cons]
      · rw [if_neg (by simp [hak]), if_neg hak, Nat.add_zero]
    rw [hmap, sum_map_add_nat, hrec, sum_indicator_eq_count,
      List.count_eq_one_of_mem hnd (hcov a (List.mem_cons_self _ _)),
      List.length_cons]

/-! ### `relpath_unless_via_root` -/

/-- `pathlib.Path.relative_to`: succeeds exactly when `base` is an
ancestor-or-self of `p`, returning the remaining components; raises
`ValueError` (`none`) otherwise.  It never produces `..` components. -/
def relative_to (p base : Path) : Option Path :=
  if base <+: p then some (p.drop base.length) else none

/-- The two outcomes of `relpath_unless_via_root`: a path relative to the
copy's directory, or an absolute path. -/
inductive RelOrAbs where
  | rel (p : Path)
  | abs (p : Path)
deriving DecidableEq

/-- The `for root in roots` loop of `relpath_unless_via_root` (src 232-245):
roots containing `start` are skipped; the first root containing `path` but
not `start` forces the absolute path. -/
def rootLoop (path start : Path) (relpath : Path) : List Path → RelOrAbs
  | [] => .rel relpath
  | r :: rs =>
    if (relative_to start r).isSome then rootLoop path start relpath rs
    else if (relative_to path r).isSome then .abs path
    else rootLoop path start relpath rs

/-- `relpath_unless_via_root(path, start, roots)` (src 223-248), with
`Path.resolve` the identity: all paths are already absolute and resolved. -/
def relpath_unless_via_root (path start : Path) (roots : List Path) : RelOrAbs :=
  match relative_to path start with
  | none => .abs path
  | some rp => rootLoop path start rp roots

/-- Length of the longest common prefix of two paths. -/
def commonPrefixLen : Path → Path → Nat
  | a :: as, b :: bs => if a = b then 1 + commonPrefixLen as bs else 0
  | _, _ => 0

/-- Modelled from the spec: "the original's path, computed as a path
relative to the copy's directory" — the ordinary POSIX relative path from
`start` to `path`, climbing out of `start` with `..` segments as needed
(what `os.path.relpath` computes).  The source has no such function: its
`Path.relative_to` raises instead of emitting `..`. -/
def specRelpath (path start : Path) : Path :=
  List.replicate (start.length - commonPrefixLen path start) ".." ++
    path.drop (commonPrefixLen path start)

/-! ### Scoring and ordering -/

/-- `re.search(pattern, str(p))` for the literal (metacharacter-free)
patterns exercised in the claims: a match is an occurrence of the pattern
as a contiguous substring of the path string. -/
def reSearch (pat s : String) : Bool :=
  decide (pat.data <:+: s.data)

/-- `make_score(pro, contra)` (src 214-220): the score of a path is the
number of `contra` (`--notoriginal`) patterns it matches minus the number
of `pro` (`--original`) patterns it matches, via `re.search` (`matchR`). -/
def make_score (matchR : String → String → Bool) (pro contra : List String)
    (p : String) : Int :=
  (contra.countP (fun i => matchR i p) : Int) -
    (pro.countP (fun i => matchR i p) : Int)

/-- Segments of a character list split at `/`. -/
def splitSlash : List Char → List (List Char)
  | [] => [[]]
  | c :: cs =>
    if c = '/' then [] :: splitSlash cs
    else
      match splitSlash cs with
      | [] => [[c]]
      | seg :: rest => (c :: seg) :: rest

/-- `len(Path(s).parts)` for ordinary POSIX path strings: the non-empty
`/`-separated components, plus the root component for absolute paths. -/
def pathParts (s : String) : Nat :=
  ((splitSlash s.data).filter (fun seg => !seg.isEmpty)).length +
    (if s.data.head? = some '/' then 1 else 0)

/-- The first-pass sort key `lambda p: (len(p.parts), len(str(p)))`
(src 336), compared lexicographically as Python compares tuples. -/
def lenKey (s : String) : Nat ×ₗ Nat :=
  toLex (pathParts s, s.data.length)

/-- The optional first-pass ordering (src 334-337): a stable sort by
`lenKey`, descending for `--longest` (`reverse=True`), ascending for
`--shortest`; absent for the default `args.long is None`.  Python's sorts
are stable, and `insertionSort` is extensionally every stable sort. -/
def preSortGroup (long : Option Bool) (outFiles : List String) : List String :=
  match long with
  | none => outFiles
  | some rev =>
    if rev then List.insertionSort (fun a b => lenKey b ≤ lenKey a) outFiles
    else List.insertionSort (fun a b => lenKey a ≤ lenKey b) outFiles

/-- `group = sorted(outFiles, key=scoring_function)` after the optional
length pre-sort (src 332-341): the always-applied stable ascending sort by
score. -/
def orderGroup (matchR : String → String → Bool) (long : Option Bool)
    (pro contra : List String) (outFiles : List String) : List String :=
  List.insertionSort
    (fun a b => make_score matchR pro contra a ≤ make_score matchR pro contra b)
    (preSortGroup long outFiles)

/-! ### The `__main__` bucket loop -/

/-- The two ways the bucket loop can die (src 318-331). -/
inductive RunError where
  | typeError
  | nameError
deriving DecidableEq

/-- `logging.DEBUG`. -/
def levelDEBUG : Nat := 10

/-- The root logger level set by `logging.basicConfig(level=logging.INFO)`
(src 291). -/
def levelINFO : Nat := 20

/-- `Logger.isEnabledFor(DEBUG)` at the configured level: `DEBUG >= INFO`
is false, so `Logger.debug` returns without ever calling `_log`. -/
def debugEnabled : Bool := decide (levelINFO ≤ levelDEBUG)

/-- The diagnostic call `logging.debug("Scanning files %s..." % aSet,
file=sys.stderr)` (src 322-323): `file` is not a keyword argument `_log`
accepts, so the call raises `TypeError` — but only when the DEBUG level is
enabled, because `Logger.debug` validates its kwargs only inside the
level-guarded `_log` call.  At the configured INFO level it is a no-op. -/
def loggingDebugBadKwarg : Except RunError Unit :=
  if debugEnabled then .error .typeError else .ok ()

/-- `[(filename, open(filename, "rb")) for filename in aSet]` (src 325):
`none` stands for a member whose `open` raised `IOError`/`OSError`/
`PermissionError`; the whole comprehension fails if any member fails. -/
def openAll {α : Type} : List (α × Option FStream) → Option (List (α × FStream))
  | [] => some []
  | (a, some s) :: rest => (openAll rest).map (fun l => (a, s) :: l)
  | (_, none) :: _ => none

/-- `groups = list(parallel_compare(file_objects))` with the default
4096-byte chunk (src 326), run with the provably sufficient fuel bound. -/
def bucketAllGroups {α : Type} (fos : List (α × FStream)) : List (List α) :=
  (parallelCompare (pcFuel fos) 4096 fos).getD []

/-- The bucket-processing loop of `__main__` (src 318-341), up to the
per-group ordering and rendering.  Buckets arrive largest size first.  A
bucket of at most one file is skipped.  In verbose mode the diagnostic call
runs first.  Opening the members happens inside `try`: if one open fails,
the `except` clause runs `continue`, so the whole bucket is skipped — but
the `finally` clause iterates `file_objects`, which is unbound unless an
earlier bucket completed its comprehension, in which case the run dies with
`NameError` (`bound` tracks whether `file_objects` is already bound).
Groups with more than one member are emitted. -/
def processBuckets {α : Type} (verbose : Bool) :
    List (List (α × Option FStream)) → Bool →
    Except RunError (List (List (List α)))
  | [], _ => .ok []
  | b :: rest, bound =>
    if b.length ≤ 1 then processBuckets verbose rest bound
    else
      match (if verbose then loggingDebugBadKwarg else .ok ()) with
      | .error e => .error e
      | .ok _ =>
        match openAll b with
        | none =>
          if bound then processBuckets verbose rest bound
          else .error .nameError
        | some fos =>
          match processBuckets verbose rest true with
          | .error e => .error e
          | .ok out =>
            .ok ((bucketAllGroups fos).filter (fun g => 1 < g.length) :: out)

/-! ### The claimed prefix-hash stage (modelled from the spec) -/

/-- Modelled from the spec (§4.3, Prefix-Hash Filter — a stage the source
does not contain): read the first `K` bytes of each member, digest them
(idealised as the prefix itself, a collision-free digest), partition the
group by digest equality, and discard singleton sub-groups. -/
def specPrefixFilter {α : Type} (K : Nat) (fos : List (α × FStream)) :
    List (List (α × FStream)) :=
  ((groupPairs (fos.map (fun p => (p.2.readChunk K, p)))).map Prod.snd).filter
    (fun g => 1 < g.length)

/-- Modelled from the spec: the claimed per-bucket pipeline — prefix-hash
filter first, then the exact verifier on each surviving sub-group only. -/
def specC3Pipeline {α : Type} (K : Nat) (fos : List (α × FStream)) :
    List (List α) :=
  ((specPrefixFilter K fos).map bucketAllGroups).flatten

/-- `pathlib.Path.match` for the single-component glob patterns exercised
below: a `*SUFFIX` pattern matches a path whose last component ends in
`SUFFIX` (right-anchored, one component, as `Path.match` treats it). -/
def matchStarSuffix (p : Path) (pat : String) : Bool :=
  match pat.data with
  | '*' :: suf =>
    match p.getLast? with
    | some n => suf.isSuffixOf n.data
    | none => false
  | _ => false

/-! ### Running the whole program on a modelled tree -/

/-- The children of an entry (a file lists as empty). -/
def FSEntry.kids : FSEntry → List FSEntry
  | .file _ _ => []
  | .dir _ ch => ch

/-- `sorted(files_by_size_dict.keys(), reverse=True)` (src 318). -/
def sortDescNat (l : List Nat) : List Nat :=
  List.insertionSort (fun a b => b ≤ a) l

/-- The distinct size keys of the index, in insertion order. -/
def bucketKeys (idx : SizeIndex) : List Nat :=
  (idx.buckets.map Prod.fst).dedup

/-- The members of one size bucket. -/
def bucketPaths (idx : SizeIndex) (s : Nat) : List Path :=
  (idx.buckets.filter (fun sp => sp.1 = s)).map Prod.snd

mutual
/-- Look up the content of the regular file reached by following the path
components through the entry (first component names the entry itself). -/
def findContentE : FSEntry → List String → Option (List Nat)
  | .file n c, p => if p = [n] then some c else none
  | .dir n ch, p =>
    match p with
    | [] => none
    | q :: rest => if q = n ∧ rest ≠ [] then findContentL ch rest else none

def findContentL : List FSEntry → List String → Option (List Nat)
  | [], _ => none
  | e :: es, p =>
    match findContentE e p with
    | some c => some c
    | none => findContentL es p
end

/-- One whole run of `__main__` over a single root directory: walk the
tree with `files_by_size`, process the size buckets largest first, open
each member successfully from the tree (no races in the model) and emit
the confirmed groups per bucket. -/
def runOnTree (verbose : Bool) (minSize : Nat) (recursive : Bool)
    (includeF : Path → Bool) (root : FSEntry) :
    Except RunError (List (List (List Path))) :=
  let idx := files_by_size minSize recursive includeF [root.name] root.kids
    ⟨[], []⟩
  let buckets := (sortDescNat (bucketKeys idx)).map
    (fun s => (bucketPaths idx s).map
      (fun p => (p, (findContentE root p).map (fun c => (⟨c, 0⟩ : FStream)))))
  processBuckets verbose buckets false

/-! ### Helper lemmas for the claim theorems -/

theorem openAll_none {α : Type} :
    ∀ {b : List (α × Option FStream)}, (∃ f ∈ b, f.2 = none) →
    openAll b = none := by
  intro b
  induction b with
  | nil => rintro ⟨f, hf, _⟩; cases hf
  | cons x rest ih =>
    rintro ⟨f, hf, hnone⟩
    obtain ⟨a, o⟩ := x
    rcases List.mem_cons.mp hf with h | h
    · subst h
      cases o with
      | none => rfl
      | some s => simp at hnone
    · cases o with
      | none => rfl
      | some s =>
        show (openAll rest).map _ = none
        rw [ih ⟨f, h, hnone⟩]
        rfl

theorem processBuckets_cons {α : Type} (verbose : Bool)
    (b : List (α × Option FStream)) (rest : List (List (α × Option FStream)))
    (bound : Bool) :
    processBuckets verbose (b :: rest) bound =
      (if b.length ≤ 1 then processBuckets verbose rest bound
      else
        match (if verbose then loggingDebugBadKwarg else .ok ()) with
        | .error e => .error e
        | .ok _ =>
          match openAll b with
          | none =>
            if bound then processBuckets verbose rest bound
            else .error .nameError
          | some fos =>
            match processBuckets verbose rest true with
            | .error e => .error e
            | .ok out =>
              .ok ((bucketAllGroups fos).filter (fun g => 1 < g.length) :: out)) :=
  rfl

theorem relative_to_isSome (p base : Path) :
    (relative_to p base).isSome = decide (base <+: p) := by
  unfold relative_to
  by_cases h : base <+: p
  · simp [h]
  · simp [h]

theorem rootLoop_eq (path start rp : Path) : ∀ roots : List Path,
    rootLoop path start rp roots =
      if roots.any (fun r => !(decide (r <+: start)) && decide (r <+: path))
      then .abs path else .rel rp := by
  intro roots
  induction roots with
  | nil => rfl
  | cons r rs ih =>
    unfold rootLoop
    rw [List.any_cons]
    by_cases h1 : r <+: start
    · rw [if_pos (by rw [relative_to_isSome]; exact decide_eq_true h1), ih]
      have : (!decide (r <+: start) && decide (r <+: path)) = false := by
        simp [h1]
      rw [this, Bool.false_or]
    · rw [if_neg (by rw [relative_to_isSome]; simp [h1])]
      by_cases h2 : r <+: path
      · rw [if_pos (by rw [relative_to_isSome]; exact decide_eq_true h2)]
        have : (!decide (r <+: start) && decide (r <+: path)) = true := by
          simp [h1, h2]
        rw [this, Bool.true_or, if_pos rfl]
      · rw [if_neg (by rw [relative_to_isSome]; simp [h2]), ih]
        have : (!decide (r <+: start) && decide (r <+: path)) = false := by
          simp [h2]
        rw [this, Bool.false_or]

theorem filter_key_orderedInsert {γ κ : Type} [DecidableEq κ] (key : γ → κ)
    (r : γ → γ → Prop) [DecidableRel r] (htie : ∀ x y, key x = key y → r x y)
    (a : γ) (k : κ) : ∀ l : List γ,
    (List.orderedInsert r a l).filter (fun x => key x = k)
      = if key a = k then a :: l.filter (fun x => key x = k)
        else l.filter (fun x => key x = k) := by
  intro l
  induction l with
  | nil =>
    by_cases hak : key a = k
    · rw [if_pos hak]
      simp [List.orderedInsert, List.filter_cons, hak]
    · rw [if_neg hak]
      simp [List.orderedInsert, List.filter_cons, hak]
  | cons b l ih =>
    rw [List.orderedInsert]
    by_cases hab : r a b
    · rw [if_pos hab]
      by_cases hak : key a = k
      · rw [if_pos hak]
        simp [List.filter_cons, hak]
      · rw [if_neg hak]
        simp [List.filter_cons, hak]
    · rw [if_neg hab]
      have hkab : key a ≠ key b := fun he => hab (htie a b he)
      by_cases hak : key a = k
      · have hbk : key b ≠ k := fun he => hkab (hak.trans he.symm)
        rw [if_pos hak]
        simp [List.filter_cons, ih, hak, hbk]
      · rw [if_neg hak]
        simp [List.filter_cons, ih, hak]

theorem filter_key_insertionSort {γ κ : Type} [DecidableEq κ] (key : γ → κ)
    (r : γ → γ → Prop) [DecidableRel r] (htie : ∀ x y, key x = key y → r x y)
    (k : κ) : ∀ l : List γ,
    (List.insertionSort r l).filter (fun x => key x = k)
      = l.filter (fun x => key x = k) := by
  intro l
  induction l with
  | nil => rfl
  | cons a l ih =>
    rw [List.insertionSort, filter_key_orderedInsert key r htie a k, ih,
      List.filter_cons]
    by_cases hak : key a = k
    · rw [if_pos hak, if_pos (by simp [hak])]
    · rw [if_neg hak, if_neg (by simp [hak])]

/-- In a list of pairs with distinct second components, the second
component determines the first. -/
theorem key_eq_of_nodup_snd {κ β : Type} {gs : List (κ × β)}
    (h : (gs.map Prod.snd).Nodup) {v : β} {k₁ k₂ : κ}
    (h₁ : (k₁, v) ∈ gs) (h₂ : (k₂, v) ∈ gs) : k₁ = k₂ := by
  induction gs with
  | nil => cases h₁
  | cons hd tl ih =>
    obtain ⟨hk, hv⟩ := hd
    simp only [List.map_cons, List.nodup_cons] at h
    rcases List.mem_cons.mp h₁ with e₁ | e₁ <;>
      rcases List.mem_cons.mp h₂ with e₂ | e₂
    · have e := e₁.trans e₂.symm
      rw [Prod.mk.injEq] at e
      exact e.1
    · exfalso
      rw [Prod.mk.injEq] at e₁
      apply h.1
      rw [← e₁.2]
      exact List.mem_map_of_mem Prod.snd e₂
    · exfalso
      rw [Prod.mk.injEq] at e₂
      apply h.1
      rw [← e₂.2]
      exact List.mem_map_of_mem Prod.snd e₁
    · exact ih h.2 e₁ e₂

/-! ### Claim theorems -/

/-- C1: Soundness of emitted duplicate sets.  `parallel_compare`, applied
to a group of fresh equal-sized streams carrying distinct filenames, never
places two streams with different contents into the same yielded group of
size ≥ 2: any two members of a yielded group are byte-for-byte identical. -/
theorem c1_parallel_compare_sound {α : Type} (fuel len : Nat)
    (fos : List (α × FStream)) (gs : List (List α)) (g : List α) (n₁ n₂ : α)
    (s₁ s₂ : FStream)
    (hlen : 1 ≤ len)
    (hpos : ∀ p ∈ fos, p.2.pos = 0)
    (hsizes : ∀ p ∈ fos, ∀ q ∈ fos, p.2.content.length = q.2.content.length)
    (hnodup : (fos.map Prod.fst).Nodup)
    (h : parallelCompare fuel len fos = some gs)
    (hg : g ∈ gs) (hsize : 2 ≤ g.length)
    (hn₁ : n₁ ∈ g) (hn₂ : n₂ ∈ g)
    (hs₁ : (n₁, s₁) ∈ fos) (hs₂ : (n₂, s₂) ∈ fos) :
    s₁.content = s₂.content := by
  have heq : EqLens fos := by
    intro p hp q hq
    unfold FStream.remLen
    rw [hpos p hp, hpos q hq, hsizes p hp q hq]
  have hrem := pc_sound fuel len fos gs hlen heq hnodup h g hg n₁ hn₁ n₂ hn₂
    s₁ s₂ hs₁ hs₂
  unfold FStream.remContent at hrem
  rw [hpos (n₁, s₁) hs₁, hpos (n₂, s₂) hs₂] at hrem
  simpa using hrem

theorem c1_witness :
    ((1 ≤ 1) ∧
      (∀ p ∈ [((0 : Nat), (⟨[1,2], 0⟩ : FStream)), (1, ⟨[1,2], 0⟩)], p.2.pos = 0) ∧
      (∀ p ∈ [((0 : Nat), (⟨[1,2], 0⟩ : FStream)), (1, ⟨[1,2], 0⟩)],
        ∀ q ∈ [((0 : Nat), (⟨[1,2], 0⟩ : FStream)), (1, ⟨[1,2], 0⟩)],
        p.2.content.length = q.2.content.length) ∧
      parallelCompare 3 1 [((0 : Nat), (⟨[1,2], 0⟩ : FStream)), (1, ⟨[1,2], 0⟩)]
        = some [[0, 1]]) ∧
    (⟨[1,2], 0⟩ : FStream).content = (⟨[1,2], 0⟩ : FStream).content :=
  ⟨by decide,
    c1_parallel_compare_sound 3 1 [(0, ⟨[1,2], 0⟩), (1, ⟨[1,2], 0⟩)] [[0, 1]]
      [0, 1] 0 1 ⟨[1,2], 0⟩ ⟨[1,2], 0⟩ (by decide) (by decide) (by decide)
      (by decide) (by decide) (by decide) (by decide) (by decide) (by decide)
      (by decide) (by decide)⟩

/-- C8: Termination of the incremental comparison.  For every finite
non-empty list of fresh streams of equal finite length and every positive
chunk size, `parallel_compare` completes: with the fuel bound `pcFuel`
(one more than the largest remaining length — every still-active member
strictly advances its read position each round, bounded by the shared
size) it returns a result. -/
theorem c8_parallel_compare_terminates {α : Type} (len : Nat)
    (fos : List (α × FStream))
    (hlen : 1 ≤ len) (hne : fos ≠ [])
    (hpos : ∀ p ∈ fos, p.2.pos = 0)
    (hsizes : ∀ p ∈ fos, ∀ q ∈ fos, p.2.content.length = q.2.content.length) :
    ∃ gs, parallelCompare (pcFuel fos) len fos = some gs := by
  have h := pc_total (pcFuel fos) len fos hlen hne (by unfold pcFuel; omega)
  exact Option.isSome_iff_exists.mp h

theorem c8_witness :
    ((1 ≤ 2) ∧ ([((0 : Nat), (⟨[5,6,7], 0⟩ : FStream)), (1, ⟨[5,6,8], 0⟩)] ≠ []) ∧
      (∀ p ∈ [((0 : Nat), (⟨[5,6,7], 0⟩ : FStream)), (1, ⟨[5,6,8], 0⟩)], p.2.pos = 0) ∧
      (∀ p ∈ [((0 : Nat), (⟨[5,6,7], 0⟩ : FStream)), (1, ⟨[5,6,8], 0⟩)],
        ∀ q ∈ [((0 : Nat), (⟨[5,6,7], 0⟩ : FStream)), (1, ⟨[5,6,8], 0⟩)],
        p.2.content.length = q.2.content.length)) ∧
    (∃ gs, parallelCompare
      (pcFuel [((0 : Nat), (⟨[5,6,7], 0⟩ : FStream)), (1, ⟨[5,6,8], 0⟩)]) 2
      [((0 : Nat), (⟨[5,6,7], 0⟩ : FStream)), (1, ⟨[5,6,8], 0⟩)] = some gs) :=
  ⟨by decide,
    c8_parallel_compare_terminates 2 [(0, ⟨[5,6,7], 0⟩), (1, ⟨[5,6,8], 0⟩)]
      (by decide) (by decide) (by decide) (by decide)⟩

/-- C3 counterexample: the pipeline contains no prefix-hash filter stage.
For the size bucket of the two 1-byte files `0x00` and `0x01`, the claimed
pipeline (prefix-hash filter with the spec's example constant K = 1024,
then exact verification of surviving sub-groups only) digests distinct
prefixes, discards both singletons, and verifies nothing — while the
program hands the whole bucket to `parallel_compare`, which reads and
yields both members. -/
theorem c3_counterexample :
    bucketAllGroups [((0 : Nat), (⟨[0], 0⟩ : FStream)), (1, ⟨[1], 0⟩)]
      = [[0], [1]] ∧
    specC3Pipeline 1024 [((0 : Nat), (⟨[0], 0⟩ : FStream)), (1, ⟨[1], 0⟩)]
      = [] ∧
    bucketAllGroups [((0 : Nat), (⟨[0], 0⟩ : FStream)), (1, ⟨[1], 0⟩)]
      ≠ specC3Pipeline 1024 [((0 : Nat), (⟨[0], 0⟩ : FStream)), (1, ⟨[1], 0⟩)] := by
  decide

/-- C3 amended: there is no prefix-hash filter stage — every size bucket is
passed whole and unfiltered to the incremental exact comparator (`hashlib`
is imported but unused).  Formally: over equal-length members, the names in
the comparator's yielded groups are exactly (a permutation of) the whole
bucket; no member is discarded by any digest-based pre-filter before
verification. -/
theorem c3_no_prefilter_bucket_reaches_verifier {α : Type} (fuel len : Nat)
    (fos : List (α × FStream)) (gs : List (List α))
    (hlen : 1 ≤ len)
    (hsizes : ∀ p ∈ fos, ∀ q ∈ fos, p.2.remLen = q.2.remLen)
    (h : parallelCompare fuel len fos = some gs) :
    gs.flatten ~ fos.map Prod.fst :=
  pc_covers fuel len fos gs hlen hsizes h

theorem c3_witness :
    ((1 ≤ 4096) ∧
      (∀ p ∈ [((0 : Nat), (⟨[0], 0⟩ : FStream)), (1, ⟨[1], 0⟩)],
        ∀ q ∈ [((0 : Nat), (⟨[0], 0⟩ : FStream)), (1, ⟨[1], 0⟩)],
        p.2.remLen = q.2.remLen) ∧
      parallelCompare 2 4096 [((0 : Nat), (⟨[0], 0⟩ : FStream)), (1, ⟨[1], 0⟩)]
        = some [[0], [1]]) ∧
    ([[0], [1]] : List (List Nat)).flatten ~
      [((0 : Nat), (⟨[0], 0⟩ : FStream)), (1, ⟨[1], 0⟩)].map Prod.fst :=
  ⟨by decide,
    c3_no_prefilter_bucket_reaches_verifier 2 4096
      [(0, ⟨[0], 0⟩), (1, ⟨[1], 0⟩)] [[0], [1]] (by decide) (by decide)
      (by decide)⟩

/-- C5 counterexample: per-file error containment fails.  In a bucket of
three same-sized files where two are identical and openable and the third
fails to open, the claim demands the two survivors still be compared and
emitted; instead, if this is the first processed bucket the run dies with
`NameError` (the `finally` clause iterates the never-assigned
`file_objects`), and if an earlier bucket was processed the whole bucket is
skipped and nothing is emitted for it. -/
theorem c5_counterexample :
    processBuckets (α := Nat) false
      [[(0, some ⟨[1,2], 0⟩), (1, some ⟨[1,2], 0⟩), (2, none)]] false
      = .error .nameError ∧
    processBuckets (α := Nat) false
      [[(5, some ⟨[7], 0⟩), (6, some ⟨[8], 0⟩)],
       [(0, some ⟨[1,2], 0⟩), (1, some ⟨[1,2], 0⟩), (2, none)]] false
      = .ok [[]] := by
  constructor
  · rfl
  · rfl

/-- C5 amended: when opening any file of a candidate bucket of size ≥ 2
fails, the entire bucket is skipped — none of its members are compared —
and if no earlier bucket had been processed, the run aborts with
`NameError` instead of continuing. -/
theorem c5_open_failure_skips_bucket {α : Type}
    (b : List (α × Option FStream)) (rest : List (List (α × Option FStream)))
    (bound : Bool) (hsize : 2 ≤ b.length) (hfail : ∃ f ∈ b, f.2 = none) :
    processBuckets false (b :: rest) bound =
      if bound then processBuckets false rest bound
      else .error .nameError := by
  rw [processBuckets_cons, if_neg (by omega), openAll_none hfail]
  rfl

theorem c5_witness :
    ((2 ≤ 3) ∧
      (∃ f ∈ [((0 : Nat), some (⟨[1,2], 0⟩ : FStream)), (1, some ⟨[1,2], 0⟩),
        (2, none)], f.2 = none)) ∧
    processBuckets (α := Nat) false
      [[(0, some ⟨[1,2], 0⟩), (1, some ⟨[1,2], 0⟩), (2, none)]] false
      = (if false then processBuckets (α := Nat) false [] false
        else .error .nameError) :=
  ⟨by decide,
    c5_open_failure_skips_bucket
      [(0, some ⟨[1,2], 0⟩), (1, some ⟨[1,2], 0⟩), (2, none)] [] false
      (by decide) (by decide)⟩

/-- C10 counterexample: the claimed verbose-mode failure does not occur.
A verbose run over a directory holding two same-sized identical files
completes normally and reports the duplicate set: `logging.debug(...,
file=sys.stderr)` passes an unsupported keyword, but `Logger.debug` only
validates keyword arguments inside the level-guarded `_log` call, and the
root level is INFO, so the diagnostic call is a silent no-op. -/
theorem c10_counterexample :
    runOnTree true 1 true truePred
      (.dir "r" [.file "a" [1,2], .file "b" [1,2]])
      = .ok [[[["r","a"], ["r","b"]]]] ∧
    debugEnabled = false := by
  constructor
  · rfl
  · rfl

/-- C10 amended: the diagnostic call passes an unsupported `file` keyword
argument, but at the configured INFO level `logging.debug` never validates
its kwargs, so the latent `TypeError` cannot fire: a verbose run of the
bucket loop behaves exactly like a non-verbose run (and in particular
reports duplicates normally). -/
theorem c10_verbose_is_noop {α : Type} :
    ∀ (bs : List (List (α × Option FStream))) (bound : Bool),
    processBuckets true bs bound = processBuckets false bs bound := by
  intro bs
  induction bs with
  | nil => intro bound; rfl
  | cons b rest ih =>
    intro bound
    rw [processBuckets_cons, processBuckets_cons]
    by_cases hb : b.length ≤ 1
    · rw [if_pos hb, if_pos hb]
      exact ih bound
    · rw [if_neg hb, if_neg hb]
      have hdbg : (if true then loggingDebugBadKwarg else (.ok () : Except RunError Unit))
          = .ok () := rfl
      have hdbg' : (if false then loggingDebugBadKwarg else (.ok () : Except RunError Unit))
          = .ok () := rfl
      rw [hdbg, hdbg']
      cases openAll b with
      | none =>
        by_cases hbound : bound
        · simp only [if_pos hbound]
          exact ih bound
        · simp only [if_neg hbound]
      | some fos =>
        rw [ih true]

/-- C6 counterexample: the symlink-target selection does not return the
relative path whenever it stays inside the copy's own root.  With the
single root `r`, original `r/a/x` and copy directory `r/b`, the relative
path `../a/x` traverses no root other than the one the copy was discovered
under, so the claim demands the relative path; but `Path.relative_to`
cannot produce `..` and raises, and the code falls back to the absolute
path. -/
theorem c6_counterexample :
    relpath_unless_via_root ["r","a","x"] ["r","b"] [["r"]]
      = .abs ["r","a","x"] ∧
    specRelpath ["r","a","x"] ["r","b"] = ["..","a","x"] ∧
    relpath_unless_via_root ["r","a","x"] ["r","b"] [["r"]]
      ≠ .rel (specRelpath ["r","a","x"] ["r","b"]) := by
  decide

/-- C6 amended: `relpath_unless_via_root` returns the relative path only
when the copy's directory is an ancestor of the original
(`Path.relative_to` semantics, never producing `..`) and no configured
root contains the original without containing the copy's directory; in
every other case — including a `..` path confined to the copy's own root —
it returns the absolute path. -/
theorem c6_characterization (path start : Path) (roots : List Path) :
    relpath_unless_via_root path start roots =
      if start <+: path then
        (if roots.any (fun r => !(decide (r <+: start)) && decide (r <+: path))
          then .abs path
          else .rel (path.drop start.length))
      else .abs path := by
  unfold relpath_unless_via_root relative_to
  by_cases h : start <+: path
  · simp only [if_pos h]
    show rootLoop path start (path.drop start.length) roots = _
    rw [rootLoop_eq]
  · simp only [if_neg h]

/-- C7: Original scoring and stable tie-break.  The score of each member is
the number of not-original patterns matched minus the number of original
patterns matched; the final group is a permutation of the input ordered
ascending by score; ties preserve the optional path-length pre-ordering
(the score sort is stable: each score class keeps the pre-sorted order);
and in the concrete scenario with `original=/canonical/`,
`notoriginal=/tmp/`, the set `{/canonical/a.txt, /tmp/a.txt}` ranks
`/canonical/a.txt` first for every length preference and input order. -/
theorem c7_score_order (matchR : String → String → Bool) (long : Option Bool)
    (pro contra : List String) (outFiles : List String) :
    (∀ p, make_score matchR pro contra p =
      (contra.countP (fun i => matchR i p) : Int) -
        (pro.countP (fun i => matchR i p) : Int)) ∧
    orderGroup matchR long pro contra outFiles ~ outFiles ∧
    (orderGroup matchR long pro contra outFiles).Pairwise
      (fun a b => make_score matchR pro contra a ≤ make_score matchR pro contra b) ∧
    (∀ k : Int, (orderGroup matchR long pro contra outFiles).filter
        (fun p => make_score matchR pro contra p = k)
      = (preSortGroup long outFiles).filter
        (fun p => make_score matchR pro contra p = k)) ∧
    (∀ long' : Option Bool,
      (orderGroup reSearch long' ["/canonical/"] ["/tmp/"]
        ["/tmp/a.txt", "/canonical/a.txt"]).head? = some "/canonical/a.txt" ∧
      (orderGroup reSearch long' ["/canonical/"] ["/tmp/"]
        ["/canonical/a.txt", "/tmp/a.txt"]).head? = some "/canonical/a.txt") := by
  refine ⟨fun p => rfl, ?_, ?_, ?_, ?_⟩
  · have h1 : orderGroup matchR long pro contra outFiles ~
        preSortGroup long outFiles := List.perm_insertionSort _ _
    refine h1.trans ?_
    unfold preSortGroup
    match long with
    | none => exact List.Perm.refl _
    | some rev =>
      cases rev
      · show List.insertionSort (fun a b => lenKey a ≤ lenKey b) outFiles ~ outFiles
        exact List.perm_insertionSort _ _
      · show List.insertionSort (fun a b => lenKey b ≤ lenKey a) outFiles ~ outFiles
        exact List.perm_insertionSort _ _
  · haveI : IsTotal String (fun a b =>
        make_score matchR pro contra a ≤ make_score matchR pro contra b) :=
      ⟨fun a b => Int.le_total _ _⟩
    haveI : IsTrans String (fun a b =>
        make_score matchR pro contra a ≤ make_score matchR pro contra b) :=
      ⟨fun _ _ _ hab hbc => Int.le_trans hab hbc⟩
    exact List.sorted_insertionSort _ _
  · intro k
    exact filter_key_insertionSort (make_score matchR pro contra) _
      (fun x y he => le_of_eq he) k _
  · intro long'
    match long' with
    | none => exact ⟨by decide, by decide⟩
    | some true => exact ⟨by decide, by decide⟩
    | some false => exact ⟨by decide, by decide⟩

/-- C4 fails on the code (the option help text — "consider only files
matching INCLUDE (in all directories)" — and the spec agree that include
patterns restrict files only): `files_by_size` applies the combined
`make_filter` predicate to every directory entry before checking whether
it is a directory, so with include pattern `*.txt` the sub-directory
`sub` — which matches no exclude pattern, the exclude list being empty —
is pruned: it is never visited and the two `.txt` files below it (which
themselves match the include pattern) are never indexed. -/
theorem c4_include_patterns_prune_directories :
    (files_by_size 1 true (make_filter matchStarSuffix ["*.txt"] []) ["top"]
      [FSEntry.dir "sub" [FSEntry.file "a.txt" [104,105,33],
        FSEntry.file "b.txt" [104,105,33]]] ⟨[], []⟩).visited = [] ∧
    (files_by_size 1 true (make_filter matchStarSuffix ["*.txt"] []) ["top"]
      [FSEntry.dir "sub" [FSEntry.file "a.txt" [104,105,33],
        FSEntry.file "b.txt" [104,105,33]]] ⟨[], []⟩).buckets = [] ∧
    make_filter matchStarSuffix ["*.txt"] [] ["top", "sub", "a.txt"] = true ∧
    make_filter matchStarSuffix ["*.txt"] [] ["top", "sub"] = false ∧
    (([] : List String).any (fun x => matchStarSuffix ["top", "sub"] x)) = false := by
  decide

/-- C2 fails on the code, through the same slip as C4: in a run with
include pattern `*.txt` over a root whose sub-directory `sub` holds the
byte-identical files `a.txt` and `b.txt` ("hello"), both files pass the
include/exclude filters and the 1-byte size floor, yet the whole run emits
no duplicate set, because the include filter prunes the directory `sub`
before traversal ever reaches the files. -/
theorem c2_completeness_fails :
    runOnTree false 1 true (make_filter matchStarSuffix ["*.txt"] [])
      (.dir "top" [.dir "sub" [.file "a.txt" [104,101,108,108,111],
        .file "b.txt" [104,101,108,108,111]]]) = .ok [] ∧
    make_filter matchStarSuffix ["*.txt"] [] ["top", "sub", "a.txt"] = true ∧
    make_filter matchStarSuffix ["*.txt"] [] ["top", "sub", "b.txt"] = true ∧
    findContentE (.dir "top" [.dir "sub" [.file "a.txt" [104,101,108,108,111],
        .file "b.txt" [104,101,108,108,111]]]) ["top", "sub", "a.txt"]
      = some [104,101,108,108,111] ∧
    findContentE (.dir "top" [.dir "sub" [.file "a.txt" [104,101,108,108,111],
        .file "b.txt" [104,101,108,108,111]]]) ["top", "sub", "b.txt"]
      = some [104,101,108,108,111] ∧
    1 ≤ ([104,101,108,108,111] : List Nat).length := by
  exact ⟨rfl, by decide, by decide, by decide, by decide, by decide⟩

/-- C9: Size-index invariant.  After a walk of a well-formed tree (distinct
sibling names) completes: every indexed pair is a real file of the tree
with its exact byte length as bucket key; each file path lies in exactly
one size bucket; the membership pairs and the indexed paths are
duplicate-free; the sum of the bucket cardinalities equals the total
number of files indexed; and the visited-directories sentinel holds only
directory paths, never a file. -/
theorem c9_size_index_invariant (minSize : Nat) (recursive : Bool)
    (includeF : Path → Bool) (rootName : String) (kids : List FSEntry)
    (hwf : wfL kids = true) :
    (∀ s p, (s, p) ∈ (files_by_size minSize recursive includeF [rootName] kids
        ⟨[], []⟩).buckets → (s, p) ∈ allFilesL kids [rootName]) ∧
    (∀ s s' p, (s, p) ∈ (files_by_size minSize recursive includeF [rootName]
        kids ⟨[], []⟩).buckets →
      (s', p) ∈ (files_by_size minSize recursive includeF [rootName] kids
        ⟨[], []⟩).buckets → s = s') ∧
    (files_by_size minSize recursive includeF [rootName] kids
      ⟨[], []⟩).buckets.Nodup ∧
    ((files_by_size minSize recursive includeF [rootName] kids
      ⟨[], []⟩).buckets.map Prod.snd).Nodup ∧
    ((bucketKeys (files_by_size minSize recursive includeF [rootName] kids
        ⟨[], []⟩)).map
      (fun s => (bucketPaths (files_by_size minSize recursive includeF
        [rootName] kids ⟨[], []⟩) s).length)).sum
      = (files_by_size minSize recursive includeF [rootName] kids
        ⟨[], []⟩).buckets.length ∧
    (∀ p ∈ (files_by_size minSize recursive includeF [rootName] kids
        ⟨[], []⟩).visited, p ∈ allDirsL kids [rootName]) ∧
    (∀ p ∈ (files_by_size minSize recursive includeF [rootName] kids
        ⟨[], []⟩).visited, ∀ s, (s, p) ∉ allFilesL kids [rootName]) := by
  set idx := files_by_size minSize recursive includeF [rootName] kids ⟨[], []⟩
    with hidx
  have hsound : ∀ s p, (s, p) ∈ idx.buckets → (s, p) ∈ allFilesL kids [rootName] := by
    intro s p h
    rcases fbsList_buckets_sub kids minSize recursive includeF [rootName]
      ⟨[], []⟩ (s, p) h with h' | h'
    · cases h'
    · exact h'
  have hlp : (listPaths kids [rootName]).Nodup := listPaths_nodup kids _ hwf
  have hfilenodup : ((allFilesL kids [rootName]).map Prod.snd).Nodup := by
    unfold listPaths at hlp
    exact List.Nodup.of_append_left hlp
  have huniq : ∀ s s' p, (s, p) ∈ idx.buckets → (s', p) ∈ idx.buckets → s = s' := by
    intro s s' p h1 h2
    exact key_eq_of_nodup_snd hfilenodup (hsound s p h1) (hsound s' p h2)
  have hnodup : idx.buckets.Nodup :=
    fbsList_buckets_nodup kids minSize recursive includeF [rootName] ⟨[], []⟩
      List.nodup_nil
  have hsndnodup : (idx.buckets.map Prod.snd).Nodup := by
    refine List.Nodup.map_on ?_ hnodup
    intro x hx y hy hxy
    obtain ⟨sx, px⟩ := x
    obtain ⟨sy, py⟩ := y
    simp only at hxy
    subst hxy
    rw [Prod.mk.injEq]
    exact ⟨huniq sx sy px hx hy, rfl⟩
  have hsum : ((bucketKeys idx).map (fun s => (bucketPaths idx s).length)).sum
      = idx.buckets.length := by
    have hgen := sum_filter_keys (Prod.fst) idx.buckets (bucketKeys idx)
      (List.nodup_dedup _)
      (fun x hx => List.mem_dedup.mpr (List.mem_map_of_mem _ hx))
    rw [← hgen]
    apply congrArg List.sum
    apply List.map_congr_left
    intro s _
    unfold bucketPaths
    rw [List.length_map]
  have hvisited : ∀ p ∈ idx.visited, p ∈ allDirsL kids [rootName] := by
    intro p h
    rcases fbsList_visited_sub kids minSize recursive includeF [rootName]
      ⟨[], []⟩ p h with h' | h'
    · cases h'
    · exact h'
  have hnofile : ∀ p ∈ idx.visited, ∀ s, (s, p) ∉ allFilesL kids [rootName] := by
    intro p hp s hmem
    have hdir : p ∈ allDirsL kids [rootName] := hvisited p hp
    have hdisj := List.disjoint_of_nodup_append
      (show (((allFilesL kids [rootName]).map Prod.snd)
        ++ allDirsL kids [rootName]).Nodup from hlp)
    exact hdisj (List.mem_map_of_mem Prod.snd hmem) hdir
  exact ⟨hsound, huniq, hnodup, hsndnodup, hsum, hvisited, hnofile⟩

theorem c9_witness :
    (wfL [FSEntry.file "a" [1,2], FSEntry.dir "d" [FSEntry.file "b" [7,8,9]]]
      = true) ∧
    ((∀ s p, (s, p) ∈ (files_by_size 1 true truePred ["r"]
        [FSEntry.file "a" [1,2], FSEntry.dir "d" [FSEntry.file "b" [7,8,9]]]
        ⟨[], []⟩).buckets →
      (s, p) ∈ allFilesL [FSEntry.file "a" [1,2],
        FSEntry.dir "d" [FSEntry.file "b" [7,8,9]]] ["r"]) ∧
    (∀ s s' p, (s, p) ∈ (files_by_size 1 true truePred ["r"]
        [FSEntry.file "a" [1,2], FSEntry.dir "d" [FSEntry.file "b" [7,8,9]]]
        ⟨[], []⟩).buckets →
      (s', p) ∈ (files_by_size 1 true truePred ["r"]
        [FSEntry.file "a" [1,2], FSEntry.dir "d" [FSEntry.file "b" [7,8,9]]]
        ⟨[], []⟩).buckets → s = s') ∧
    (files_by_size 1 true truePred ["r"]
      [FSEntry.file "a" [1,2], FSEntry.dir "d" [FSEntry.file "b" [7,8,9]]]
      ⟨[], []⟩).buckets.Nodup ∧
    ((files_by_size 1 true truePred ["r"]
      [FSEntry.file "a" [1,2], FSEntry.dir "d" [FSEntry.file "b" [7,8,9]]]
      ⟨[], []⟩).buckets.map Prod.snd).Nodup ∧
    ((bucketKeys (files_by_size 1 true truePred ["r"]
        [FSEntry.file "a" [1,2], FSEntry.dir "d" [FSEntry.file "b" [7,8,9]]]
        ⟨[], []⟩)).map
      (fun s => (bucketPaths (files_by_size 1 true truePred ["r"]
        [FSEntry.file "a" [1,2], FSEntry.dir "d" [FSEntry.file "b" [7,8,9]]]
        ⟨[], []⟩) s).length)).sum
      = (files_by_size 1 true truePred ["r"]
        [FSEntry.file "a" [1,2], FSEntry.dir "d" [FSEntry.file "b" [7,8,9]]]
        ⟨[], []⟩).buckets.length ∧
    (∀ p ∈ (files_by_size 1 true truePred ["r"]
        [FSEntry.file "a" [1,2], FSEntry.dir "d" [FSEntry.file "b" [7,8,9]]]
        ⟨[], []⟩).visited,
      p ∈ allDirsL [FSEntry.file "a" [1,2],
        FSEntry.dir "d" [FSEntry.file "b" [7,8,9]]] ["r"]) ∧
    (∀ p ∈ (files_by_size 1 true truePred ["r"]
        [FSEntry.file "a" [1,2], FSEntry.dir "d" [FSEntry.file "b" [7,8,9]]]
        ⟨[], []⟩).visited, ∀ s,
      (s, p) ∉ allFilesL [FSEntry.file "a" [1,2],
        FSEntry.dir "d" [FSEntry.file "b" [7,8,9]]] ["r"])) :=
  ⟨by decide,
    c9_size_index_invariant 1 true truePred "r"
      [FSEntry.file "a" [1,2], FSEntry.dir "d" [FSEntry.file "b" [7,8,9]]]
      (by decide)⟩

end SearchDup
